import Mathlib

/-!
Shallow embedding of `src/PriorityQueue.js` (class `PriorityQueue`), a binary
max-heap priority queue with caller-visible references, plus proofs about the
claims of the specification.

Modelling conventions:

* JS numbers used as priorities are modelled by `ℚ`.  The program only ever
  compares priorities (no arithmetic on them is observable), and the finite
  IEEE doubles embed order-faithfully into `ℚ`; the `isNumber` boundary check
  (which rejects non-numeric / non-finite input) therefore always passes for
  the modelled inputs and non-number arguments are outside the model.
* A caller-visible reference is the entry object itself in JS.  Object
  identity is modelled by an allocation index (`Nat`) into a monotonically
  growing object table `store`; `store[id]` holds the current `element` and
  (mutable) `priority` of the object with identity `id`.  The heap array,
  the `references` set and the `deletedElements` set hold identities.
* JS `Set` is modelled as a duplicate-free list observed only through
  membership; JS plain objects used as maps (`prioritiesObj`) are modelled as
  association lists keyed by the priority (number-to-string key coercion is
  injective on the modelled numbers).  A count stored in `prioritiesObj` is an
  `Option Int`, `none` standing for the JS `NaN` produced by `undefined--`.
* Fallible operations return `Except JsErr`; an operation that throws after
  mutating returns the mutated state alongside the error, mirroring the
  persistence of partial mutations past a JS throw.
-/

set_option maxHeartbeats 1000000

namespace PQModel

/-- The error taxonomy of the source: `TypeError`, `RangeError` and
`ReferenceError('Invalid reference')`. -/
inductive JsErr where
  | typeError
  | rangeError
  | invalidReference
deriving DecidableEq, Repr

instance {ε σ : Type} [DecidableEq ε] [DecidableEq σ] :
    DecidableEq (Except ε σ)
  | .error e, .error f =>
    if h : e = f then isTrue (by rw [h])
    else isFalse (fun hc => h (by injection hc))
  | .error _, .ok _ => isFalse (fun hc => Except.noConfusion hc)
  | .ok _, .error _ => isFalse (fun hc => Except.noConfusion hc)
  | .ok a, .ok b =>
    if h : a = b then isTrue (by rw [h])
    else isFalse (fun hc => h (by injection hc))

/-- The entry object created by `add`: `{element, priority}`. -/
structure Entry (α : Type) where
  element : α
  priority : ℚ
deriving DecidableEq, Repr

/-- The state of a `PriorityQueue` instance.  `store` is the object table
(see the module docstring); the remaining fields are the constructor's
`this.heapArr`, `this.counterDequeuedElements`, `this.prioritiesObj`,
`this.references` and `this.deletedElements`. -/
structure PriorityQueue (α : Type) where
  store : List (Entry α)
  heapArr : List Nat
  counterDequeuedElements : Nat
  prioritiesObj : List (ℚ × Option Int)
  references : List Nat
  deletedElements : List Nat
deriving DecidableEq, Repr

/-- `new PriorityQueue()`. -/
def emptyPQ : PriorityQueue α :=
  { store := [], heapArr := [], counterDequeuedElements := 0,
    prioritiesObj := [], references := [], deletedElements := [] }

/-- Current priority of the object with identity `id` (reads the object
table; `0` is a dummy value for identities never allocated). -/
def prioOf (store : List (Entry α)) (id : Nat) : ℚ :=
  ((store[id]?).map Entry.priority).getD 0

/-- Current element of the object with identity `id`. -/
def elemOf [Inhabited α] (store : List (Entry α)) (id : Nat) : α :=
  ((store[id]?).map Entry.element).getD default

/-- Priority stored at position `i` of an array of objects, through a
priority view `pr` (`0` for an out-of-range position; every use in the
operations below reads an in-range position). -/
def prAt (pr : β → ℚ) (arr : List β) (i : Nat) : ℚ :=
  ((arr[i]?).map pr).getD 0

/-- `Math.floor((i - 1) / 2)`, the parent index of a non-root node. -/
def parentIdx (i : Nat) : Nat := (i - 1) / 2

/-- The linear identity scan shared by `getIndexByReference` and by
`Array.prototype.findIndex(item => item === elementRef)`: index of the first
position holding `id`, if any. -/
def scanIndex (id : Nat) : List Nat → Option Nat
  | [] => none
  | x :: xs => if x = id then some 0 else (scanIndex id xs).map (· + 1)

/-! ### The priority histogram `prioritiesObj` -/

/-- `this.prioritiesObj[priority]` : `none` = key absent (JS `undefined`),
`some c` = key present with count `c` (`c = none` is a stored `NaN`). -/
def hGet (h : List (ℚ × Option Int)) (p : ℚ) : Option (Option Int) :=
  (h.find? (fun kv => kv.1 = p)).map Prod.snd

/-- `this.prioritiesObj[priority] = v` (overwrite in place, else append). -/
def hSet (h : List (ℚ × Option Int)) (p : ℚ) (v : Option Int) :
    List (ℚ × Option Int) :=
  match h with
  | [] => [(p, v)]
  | kv :: t => if kv.1 = p then (p, v) :: t else kv :: hSet t p v

/-- `delete this.prioritiesObj[priority]`. -/
def hDelete (h : List (ℚ × Option Int)) (p : ℚ) : List (ℚ × Option Int) :=
  h.filter (fun kv => kv.1 ≠ p)

/-- `increasePriority(priority)`: `if (obj[p]) obj[p]++ else obj[p] = 1`.
`undefined`, `NaN` and `0` are all falsy. -/
def increasePriority (h : List (ℚ × Option Int)) (p : ℚ) :
    List (ℚ × Option Int) :=
  match hGet h p with
  | some (some n) => if n ≠ 0 then hSet h p (some (n + 1)) else hSet h p (some 1)
  | some none => hSet h p (some 1)
  | none => hSet h p (some 1)

/-- `decreasePriority(priority)`: `if (obj[p] === 1) delete obj[p] else
obj[p]--`.  A decrement of an absent key stores `undefined - 1 = NaN`
(creating the key); a decrement of `NaN` keeps `NaN`. -/
def decreasePriority (h : List (ℚ × Option Int)) (p : ℚ) :
    List (ℚ × Option Int) :=
  match hGet h p with
  | some (some 1) => hDelete h p
  | some (some n) => hSet h p (some (n - 1))
  | some none => hSet h p none
  | none => hSet h p none

/-- Sum of the counts of the histogram (a stored `NaN` contributes `0`;
no claim is evaluated on a state holding a `NaN` count). -/
def histSum (h : List (ℚ × Option Int)) : Int :=
  (h.map (fun kv => kv.2.getD 0)).sum

/-! ### The sift routines `bubbleUp` / `bubbleDown`

Both are generic in the array element type `β` and a priority view
`pr : β → ℚ`; the queue instantiates `β := Nat` (identities) and
`pr := prioOf store`, which is exactly reading `.priority` of the stored
object. -/

/-- `j < arr.length && arr[j].priority > arr[i].priority` — the guarded
comparison of `bubbleDown` (the `i` side is always in range at the call
sites, where it indexes the current node). -/
def gtAt (pr : β → ℚ) (arr : List β) (j i : Nat) : Bool :=
  if hj : j < arr.length then
    if hi : i < arr.length then decide (pr arr[i] < pr arr[j]) else false
  else false

/-- The loop of `bubbleUp`: `x` is the captured `newElement`, which the loop
keeps at the current index.  `while (index) { p := floor((index-1)/2); if
(arr[p].priority >= x.priority) break; swap; index := p }`.  The index
strictly decreases on every iteration, so `fuel` — an upper bound on the
current index, supplied by the wrapper — makes the recursion structural
and never runs out.  (The parent lookup is always in range at the call
sites; the out-of-range guard only makes the definition total.) -/
def bubbleUpGo (pr : β → ℚ) (x : β) : Nat → List β → Nat → List β
  | _, arr, 0 => arr
  | 0, arr, _ => arr
  | fuel + 1, arr, i =>
    let pIdx := (i - 1) / 2
    if hp : pIdx < arr.length then
      if pr x ≤ pr arr[pIdx] then arr
      else bubbleUpGo pr x fuel ((arr.set pIdx x).set i arr[pIdx]) pIdx
    else arr

/-- `bubbleUp(index)`: captures `newElement = this.heapArr[index]` and runs
the loop (`index` iterations at most). -/
def bubbleUp (pr : β → ℚ) (arr : List β) (index : Nat) : List β :=
  match arr[index]? with
  | none => arr
  | some newElement => bubbleUpGo pr newElement index arr index

/-- The child selected by one `bubbleDown` iteration: first the left child
is compared (strict `>`), then the right child against the intermediate
winner. -/
def dnTarget (pr : β → ℚ) (arr : List β) (i : Nat) : Nat :=
  let t1 := if gtAt pr arr (2 * i + 1) i then 2 * i + 1 else i
  if gtAt pr arr (2 * i + 2) t1 then 2 * i + 2 else t1

theorem dnTarget_eq_or (pr : β → ℚ) (arr : List β) (i : Nat) :
    dnTarget pr arr i = i ∨ dnTarget pr arr i = 2 * i + 1 ∨
      dnTarget pr arr i = 2 * i + 2 := by
  simp only [dnTarget]
  split_ifs <;> simp

/-- The loop of `bubbleDown`: `x` is the captured `actualElement`, kept at
the current index by the loop.  The index strictly increases below the
fixed array length on every iteration, so `fuel` — the array length,
supplied by the wrapper — bounds the iterations, makes the recursion
structural and never runs out. -/
def bubbleDownGo (pr : β → ℚ) (x : β) : Nat → List β → Nat → List β
  | 0, arr, _ => arr
  | fuel + 1, arr, i =>
    let t := dnTarget pr arr i
    if t = i then arr
    else
      match arr[t]? with
      | none => arr
      | some target => bubbleDownGo pr x fuel ((arr.set i target).set t x) t

/-- `bubbleDown(index)`: captures `actualElement = this.heapArr[index]` and
runs the loop (fewer than `length` iterations). -/
def bubbleDown (pr : β → ℚ) (arr : List β) (index : Nat) : List β :=
  match arr[index]? with
  | none => arr
  | some actualElement => bubbleDownGo pr actualElement arr.length arr index

/-! ### The public operations -/

namespace PriorityQueue

/-- `add(element, priority)`: validates the priority (always a number in the
model), pushes a fresh entry object, sifts it up, updates the histogram, the
total counter and the live set, and returns the new object, i.e. its
identity. -/
def add (s : PriorityQueue α) (element : α) (priority : ℚ) :
    Nat × PriorityQueue α :=
  let id := s.store.length
  let store' := s.store ++ [⟨element, priority⟩]
  let arr1 := s.heapArr ++ [id]
  let arr2 := bubbleUp (prioOf store') arr1 (arr1.length - 1)
  (id, { store := store', heapArr := arr2,
         counterDequeuedElements := s.counterDequeuedElements + 1,
         prioritiesObj := increasePriority s.prioritiesObj priority,
         references := s.references.insert id,
         deletedElements := s.deletedElements })

/-- `get front()`: root element or `null`. -/
def front [Inhabited α] (s : PriorityQueue α) : Option α :=
  match s.heapArr with
  | [] => none
  | id :: _ => some (elemOf s.store id)

/-- `next()`: on a non-empty queue remembers the root, executes
`heapArr[0] = heapArr.pop()` (pop removes the **last** slot and the
assignment writes slot `0`, re-creating it when the pop emptied the array),
sifts the new root down when the array is non-empty, then updates the
histogram and the live/removed sets and returns the root's element. -/
def next [Inhabited α] (s : PriorityQueue α) : Option α × PriorityQueue α :=
  if h : s.heapArr = [] then (none, s)
  else
    let root := s.heapArr.head h
    let popped := s.heapArr.getLast h
    let arr1 := s.heapArr.dropLast
    -- `heapArr[0] = heapArr.pop()`: writing slot 0 of the popped array
    -- replaces its head when it is non-empty and re-creates slot 0 when the
    -- pop emptied it; both cases are `popped :: arr1.tail`.
    let arr2 := popped :: arr1.tail
    let arr3 := if arr2.length ≠ 0 then bubbleDown (prioOf s.store) arr2 0 else arr2
    (some (elemOf s.store root),
     { s with heapArr := arr3,
              prioritiesObj := decreasePriority s.prioritiesObj (prioOf s.store root),
              references := s.references.erase root,
              deletedElements := s.deletedElements.insert root })

/-- `get length()`. -/
def length (s : PriorityQueue α) : Nat := s.heapArr.length

/-- `get totalProcessed()`. -/
def totalProcessed (s : PriorityQueue α) : Nat := s.counterDequeuedElements

/-- `getIndexByReference(elementRef)`: linear identity scan of the heap
array; throws `ReferenceError('Invalid reference')` when absent. -/
def getIndexByReference (s : PriorityQueue α) (id : Nat) : Except JsErr Nat :=
  match scanIndex id s.heapArr with
  | some i => .ok i
  | none => .error .invalidReference

/-- `positionOf(elementRef) = getIndexByReference(elementRef) + 1`. -/
def positionOf (s : PriorityQueue α) (id : Nat) : Except JsErr Int :=
  (getIndexByReference s id).map (fun i => (i : Int) + 1)

/-- `at(position)`: `TypeError` for a non-number (outside the model;
integer positions are modelled), `RangeError` for `position <= 0`, `null`
past the end, else `{ref, value}` for the 1-based `position`. -/
def atPosition [Inhabited α] (s : PriorityQueue α) (position : Int) :
    Except JsErr (Option (Nat × α)) :=
  if position ≤ 0 then .error .rangeError
  else if (s.heapArr.length : Int) < position then .ok none
  else
    match s.heapArr[(position - 1).toNat]? with
    | some id => .ok (some (id, elemOf s.store id))
    | none => .ok none

/-- `changePriority(elementRef, newPriority)`: validates the priority
(always passes in the model) and that `elementRef` is in the live set
(`ReferenceError` otherwise); updates the histogram around mutating the
object's priority in place; then finds the object's index in the heap array
and sifts.  When the object is no longer in the heap array (removed by
`removeByRef`, which does not shrink the live set), `findIndex` yields `-1`:
with equal old and new priorities no sift runs and the final expression
returns `findIndex + 1 = 0`; otherwise `bubbleUp(-1)`/`bubbleDown(-1)`
reads `heapArr[-1]` (`undefined`) and `.priority` of it throws a
`TypeError`, with the histogram and priority mutations retained. -/
def changePriority (s : PriorityQueue α) (id : Nat) (newPriority : ℚ) :
    Except JsErr Int × PriorityQueue α :=
  if id ∈ s.references then
    let oldPriority := prioOf s.store id
    let h1 := decreasePriority s.prioritiesObj oldPriority
    let store' := s.store.modify (fun e => { e with priority := newPriority }) id
    let h2 := increasePriority h1 newPriority
    let s1 : PriorityQueue α :=
      { s with prioritiesObj := h2, store := store' }
    match scanIndex id s1.heapArr with
    | some index =>
      let arr' :=
        if newPriority < oldPriority then bubbleDown (prioOf store') s1.heapArr index
        else if oldPriority < newPriority then bubbleUp (prioOf store') s1.heapArr index
        else s1.heapArr
      let s2 : PriorityQueue α := { s1 with heapArr := arr' }
      let ret : Int :=
        if id ∈ s2.references then
          match scanIndex id s2.heapArr with
          | some j => (j : Int) + 1
          | none => 0
        else -1
      (.ok ret, s2)
    | none =>
      if oldPriority = newPriority then (.ok 0, s1)
      else (.error .typeError, s1)
  else (.error .invalidReference, s)

/-- `removeByRef(elementRef)`: `false` if already in the removed set;
`ReferenceError` when the identity scan fails; else splices the entry out of
the heap array (no re-heapification), decrements the histogram and marks the
object removed (the live set is *not* shrunk), returning `true`. -/
def removeByRef (s : PriorityQueue α) (id : Nat) :
    Except JsErr Bool × PriorityQueue α :=
  if id ∈ s.deletedElements then (.ok false, s)
  else
    match scanIndex id s.heapArr with
    | none => (.error .invalidReference, s)
    | some index =>
      (.ok true,
       { s with heapArr := s.heapArr.eraseIdx index,
                prioritiesObj := decreasePriority s.prioritiesObj (prioOf s.store id),
                deletedElements := s.deletedElements.insert id })

/-- `removeByPosition(position)`: `RangeError` for `position <= 0`, `false`
past the end, else delegates to `removeByRef` on the entry at that position,
discarding its result, and returns `true`. -/
def removeByPosition (s : PriorityQueue α) (position : Int) :
    Except JsErr Bool × PriorityQueue α :=
  if position ≤ 0 then (.error .rangeError, s)
  else if (s.heapArr.length : Int) < position then (.ok false, s)
  else
    match s.heapArr[(position - 1).toNat]? with
    | some id => (.ok true, (removeByRef s id).2)
    | none => (.ok true, s)

/-- `clear()`: empties the heap array, the live set, the histogram and the
removed set; `counterDequeuedElements` (and the object table, which models
objects the container no longer knows) are untouched. -/
def clear (s : PriorityQueue α) : PriorityQueue α :=
  { s with heapArr := [], references := [], prioritiesObj := [],
           deletedElements := [] }

/-- The snapshot `[...this.heapArr].sort((a, b) => b.priority - a.priority)`:
a stable sort, descending by priority. -/
def sortedSnapshot (s : PriorityQueue α) : List Nat :=
  s.heapArr.mergeSort (fun a b => decide (prioOf s.store b ≤ prioOf s.store a))

/-- The iteration of `forEach`: for each snapshot entry in order, the pair
`(positionOf(entry), entry.element)` passed to the callback.  A
`positionOf` failure would propagate as in JS (it never fires, since every
snapshot entry is in the heap array). -/
def forEachGo [Inhabited α] (s : PriorityQueue α) :
    List Nat → Except JsErr (List (Int × α))
  | [] => .ok []
  | id :: rest => do
    let r ← positionOf s id
    let tail ← forEachGo s rest
    pure ((r, elemOf s.store id) :: tail)

/-- `forEach(callbackfn, thisArg?)`: `TypeError` for a non-callable
callback (the `typeof` check is modelled by the `callable` flag); otherwise
the traversal of the sorted snapshot.  The callback is modelled as a pure
observer: the returned list is the sequence of `(position, element)`
argument pairs passed to it, and the state component records that the
traversal performs no mutation. -/
def forEach [Inhabited α] (s : PriorityQueue α) (callable : Bool) :
    Except JsErr (List (Int × α)) × PriorityQueue α :=
  if !callable then (.error .typeError, s)
  else (forEachGo s (sortedSnapshot s), s)

/-- `get stats()`: the live histogram object. -/
def stats (s : PriorityQueue α) : List (ℚ × Option Int) := s.prioritiesObj

end PriorityQueue

/-! ### Operation traces -/

/-- One mutating call on the container (the read-only calls `front`,
`length`, `totalProcessed`, `positionOf`, `at`, `forEach` and `stats` do not
change the state and need not appear in a trace). -/
inductive Op (α : Type) where
  | add (element : α) (priority : ℚ)
  | next
  | changePriority (id : Nat) (priority : ℚ)
  | removeByRef (id : Nat)
  | removeByPosition (position : Int)
  | clear
deriving DecidableEq, Repr

/-- The state after one mutating call (a thrown error leaves the caller
with the state as mutated so far, exactly as in JS). -/
def step [Inhabited α] (s : PriorityQueue α) : Op α → PriorityQueue α
  | .add e p => (s.add e p).2
  | .next => s.next.2
  | .changePriority id p => (s.changePriority id p).2
  | .removeByRef id => (s.removeByRef id).2
  | .removeByPosition p => (s.removeByPosition p).2
  | .clear => s.clear

/-- The state after a sequence of mutating calls. -/
def run [Inhabited α] (s : PriorityQueue α) (ops : List (Op α)) :
    PriorityQueue α :=
  ops.foldl step s

/-- Whether an operation is `clear()`. -/
def Op.isClear : Op α → Bool
  | .clear => true
  | _ => false

/-- A trace that never calls `clear()`. -/
def NoClear (ops : List (Op α)) : Prop := ∀ op ∈ ops, op.isClear = false

instance (ops : List (Op α)) : Decidable (NoClear ops) :=
  inferInstanceAs (Decidable (∀ op ∈ ops, op.isClear = false))

/-! ### The stated invariants -/

/-- The max-heap ordering of the claim: every in-range child at `2i+1` or
`2i+2` has priority at most its parent's. -/
def IsHeapArr (pr : β → ℚ) (arr : List β) : Prop :=
  ∀ i, i < arr.length → ∀ j, j < arr.length →
    (j = 2 * i + 1 ∨ j = 2 * i + 2) → prAt pr arr j ≤ prAt pr arr i

instance (pr : β → ℚ) (arr : List β) : Decidable (IsHeapArr pr arr) :=
  inferInstanceAs (Decidable (∀ i, i < arr.length → ∀ j, j < arr.length →
    (j = 2 * i + 1 ∨ j = 2 * i + 2) → prAt pr arr j ≤ prAt pr arr i))

/-- The heap ordering of a queue state, through the object table. -/
def IsHeapState (s : PriorityQueue α) : Prop :=
  IsHeapArr (prioOf s.store) s.heapArr

/-- Structural well-formedness that every state actually produced by the
container enjoys: the heap array holds pairwise-distinct identities, all of
them allocated. -/
def WellFormed (s : PriorityQueue α) : Prop :=
  s.heapArr.Nodup ∧ ∀ id ∈ s.heapArr, id < s.store.length

/-- The identity-tracking invariant of no-`clear` executions: every
allocated identity is either in the heap array or in the removed set. -/
def GoodState (s : PriorityQueue α) : Prop :=
  ∀ id, id < s.store.length → id ∈ s.heapArr ∨ id ∈ s.deletedElements

instance (s : PriorityQueue α) : Decidable (IsHeapState s) :=
  inferInstanceAs (Decidable (IsHeapArr _ _))

/-- The heap ordering read along parent edges; equivalent to `IsHeapArr`
and more convenient for the sift proofs. -/
def IsHeapParent (pr : β → ℚ) (arr : List β) : Prop :=
  ∀ j, 0 < j → j < arr.length → prAt pr arr j ≤ prAt pr arr (parentIdx j)

/-! ### Basic facts about `prAt`, `parentIdx`, `gtAt`, `scanIndex` -/

theorem prAt_eq_pr {pr : β → ℚ} {arr : List β} {i : Nat} (h : i < arr.length) :
    prAt pr arr i = pr arr[i] := by
  simp [prAt, List.getElem?_eq_getElem h]

theorem prAt_set_self {pr : β → ℚ} {arr : List β} {i : Nat} {x : β}
    (h : i < arr.length) : prAt pr (arr.set i x) i = pr x := by
  simp [prAt, List.getElem?_set_self h]

theorem prAt_set_ne {pr : β → ℚ} {arr : List β} {i j : Nat} {x : β}
    (h : i ≠ j) : prAt pr (arr.set i x) j = prAt pr arr j := by
  simp [prAt, List.getElem?_set_ne h]

theorem parentIdx_lt {j : Nat} (h : 0 < j) : parentIdx j < j := by
  simp only [parentIdx]
  omega

theorem parentIdx_child_left (i : Nat) : parentIdx (2 * i + 1) = i := by
  simp only [parentIdx]
  omega

theorem parentIdx_child_right (i : Nat) : parentIdx (2 * i + 2) = i := by
  simp only [parentIdx]
  omega

theorem isHeapArr_iff_parent {pr : β → ℚ} {arr : List β} :
    IsHeapArr pr arr ↔ IsHeapParent pr arr := by
  constructor
  · intro h j hj0 hjl
    have hpj : parentIdx j < arr.length :=
      Nat.lt_trans (parentIdx_lt hj0) hjl
    have hchild : j = 2 * parentIdx j + 1 ∨ j = 2 * parentIdx j + 2 := by
      simp only [parentIdx]
      omega
    exact h _ hpj _ hjl hchild
  · intro h i hil j hjl hchild
    have hj0 : 0 < j := by omega
    have hrw : parentIdx j = i := by
      rcases hchild with h1 | h1
      · rw [h1, parentIdx_child_left]
      · rw [h1, parentIdx_child_right]
    have := h j hj0 hjl
    rwa [hrw] at this

theorem gtAt_true_iff {pr : β → ℚ} {arr : List β} {j i : Nat} :
    gtAt pr arr j i = true ↔
      j < arr.length ∧ i < arr.length ∧ prAt pr arr i < prAt pr arr j := by
  simp only [gtAt]
  split_ifs with hj hi
  · simp [prAt_eq_pr hj, prAt_eq_pr hi, hj, hi]
  · simp [hi]
  · simp [hj]

theorem gtAt_false_le {pr : β → ℚ} {arr : List β} {j i : Nat}
    (h : gtAt pr arr j i = false) (hj : j < arr.length) (hi : i < arr.length) :
    prAt pr arr j ≤ prAt pr arr i := by
  by_contra hlt
  rw [← Bool.not_eq_true, gtAt_true_iff] at h
  exact h ⟨hj, hi, not_le.1 hlt⟩

theorem scanIndex_some {id : Nat} :
    ∀ {l : List Nat} {i : Nat}, scanIndex id l = some i → l[i]? = some id := by
  intro l
  induction l with
  | nil => intro i h; simp [scanIndex] at h
  | cons x xs ih =>
    intro i h
    simp only [scanIndex] at h
    split_ifs at h with hx
    · cases h
      simp [hx]
    · rcases Option.map_eq_some'.1 h with ⟨i', hi', rfl⟩
      simpa using ih hi'

theorem scanIndex_none_iff {id : Nat} {l : List Nat} :
    scanIndex id l = none ↔ id ∉ l := by
  induction l with
  | nil => simp [scanIndex]
  | cons x xs ih =>
    simp only [scanIndex, List.mem_cons]
    split_ifs with hx
    · simp [hx]
    · simp [Option.map_eq_none', ih, fun h => hx ((h : id = x).symm)]
      tauto

theorem scanIndex_isSome_of_mem {id : Nat} {l : List Nat} (h : id ∈ l) :
    ∃ i, scanIndex id l = some i := by
  rcases ho : scanIndex id l with _ | i
  · exact absurd h (scanIndex_none_iff.1 ho)
  · exact ⟨i, rfl⟩

/-! ### Swaps are permutations -/

theorem perm_cons_set {b c : β} :
    ∀ {l : List β} {m : Nat}, l[m]? = some b → (b :: l.set m c).Perm (c :: l) := by
  intro l
  induction l with
  | nil => intro m h; simp at h
  | cons d t ih =>
    intro m h
    cases m with
    | zero =>
      have hd : d = b := by simpa using h
      simpa [hd] using List.Perm.swap c b t
    | succ m =>
      simp only [List.getElem?_cons_succ] at h
      have step1 : (b :: d :: t.set m c).Perm (d :: b :: t.set m c) :=
        List.Perm.swap d b _
      have step2 : (d :: b :: t.set m c).Perm (d :: c :: t) :=
        List.Perm.cons d (ih h)
      have step3 : (d :: c :: t).Perm (c :: d :: t) := List.Perm.swap c d t
      simpa using (step1.trans step2).trans step3

theorem set_set_perm {a b : β} :
    ∀ {arr : List β} {i j : Nat}, i ≠ j → arr[i]? = some a → arr[j]? = some b →
      ((arr.set i b).set j a).Perm arr := by
  intro arr
  induction arr with
  | nil => intro i j _ ha _; simp at ha
  | cons h t ih =>
    intro i j hij ha hb
    cases i with
    | zero =>
      cases j with
      | zero => exact absurd rfl hij
      | succ j =>
        have hha : h = a := by simpa using ha
        simp only [List.getElem?_cons_succ] at hb
        have hperm := perm_cons_set (c := a) hb
        simpa [hha] using hperm
    | succ i =>
      cases j with
      | zero =>
        have hhb : h = b := by simpa using hb
        simp only [List.getElem?_cons_succ] at ha
        have hperm := perm_cons_set (c := b) ha
        simpa [hhb] using hperm
      | succ j =>
        simp only [List.getElem?_cons_succ] at ha hb
        have hij' : i ≠ j := fun h' => hij (by omega)
        simpa using List.Perm.cons h (ih hij' ha hb)

/-! ### Unfolding equations for the sift loops -/

theorem bubbleUpGo_zero (pr : β → ℚ) (x : β) (fuel : Nat) (arr : List β) :
    bubbleUpGo pr x fuel arr 0 = arr := by
  cases fuel <;> rfl

theorem bubbleUpGo_stop (pr : β → ℚ) (x : β) (fuel : Nat) (arr : List β)
    (i : Nat) (hi0 : i ≠ 0) (hp : (i - 1) / 2 < arr.length)
    (hle : pr x ≤ pr arr[(i - 1) / 2]) :
    bubbleUpGo pr x (fuel + 1) arr i = arr := by
  obtain ⟨j, rfl⟩ := Nat.exists_eq_succ_of_ne_zero hi0
  simp only [bubbleUpGo]
  simp only [Nat.succ_sub_one] at hp hle ⊢
  rw [dif_pos hp, if_pos hle]

theorem bubbleUpGo_swap (pr : β → ℚ) (x : β) (fuel : Nat) (arr : List β)
    (i : Nat) (hi0 : i ≠ 0) (hp : (i - 1) / 2 < arr.length)
    (hgt : ¬pr x ≤ pr arr[(i - 1) / 2]) :
    bubbleUpGo pr x (fuel + 1) arr i =
      bubbleUpGo pr x fuel ((arr.set ((i - 1) / 2) x).set i arr[(i - 1) / 2])
        ((i - 1) / 2) := by
  obtain ⟨j, rfl⟩ := Nat.exists_eq_succ_of_ne_zero hi0
  simp only [bubbleUpGo]
  simp only [Nat.succ_sub_one] at hp hgt ⊢
  rw [dif_pos hp, if_neg hgt]

theorem bubbleUpGo_oob (pr : β → ℚ) (x : β) (fuel : Nat) (arr : List β)
    (i : Nat) (hi0 : i ≠ 0) (hp : ¬(i - 1) / 2 < arr.length) :
    bubbleUpGo pr x (fuel + 1) arr i = arr := by
  obtain ⟨j, rfl⟩ := Nat.exists_eq_succ_of_ne_zero hi0
  simp only [bubbleUpGo]
  simp only [Nat.succ_sub_one] at hp ⊢
  rw [dif_neg hp]

theorem bubbleDownGo_stop (pr : β → ℚ) (x : β) (fuel : Nat) (arr : List β)
    (i : Nat) (ht : dnTarget pr arr i = i) :
    bubbleDownGo pr x (fuel + 1) arr i = arr := by
  simp only [bubbleDownGo]
  rw [if_pos ht]

theorem bubbleDownGo_swap (pr : β → ℚ) (x : β) (fuel : Nat) (arr : List β)
    (i : Nat) (ht : dnTarget pr arr i ≠ i) (target : β)
    (harr : arr[dnTarget pr arr i]? = some target) :
    bubbleDownGo pr x (fuel + 1) arr i =
      bubbleDownGo pr x fuel ((arr.set i target).set (dnTarget pr arr i) x)
        (dnTarget pr arr i) := by
  simp only [bubbleDownGo]
  rw [if_neg ht]
  split
  next heq => rw [heq] at harr; exact Option.noConfusion harr
  next t' heq =>
    rw [heq] at harr
    injection harr with hh
    rw [hh]

theorem bubbleDownGo_oob (pr : β → ℚ) (x : β) (fuel : Nat) (arr : List β)
    (i : Nat) (ht : dnTarget pr arr i ≠ i)
    (harr : arr[dnTarget pr arr i]? = none) :
    bubbleDownGo pr x (fuel + 1) arr i = arr := by
  simp only [bubbleDownGo]
  rw [if_neg ht]
  split
  next heq => rfl
  next t' heq => rw [heq] at harr; exact Option.noConfusion harr

/-! ### The sift loops permute the array -/

theorem bubbleUpGo_perm (pr : β → ℚ) (x : β) :
    ∀ (fuel : Nat) (arr : List β) (k : Nat), arr[k]? = some x →
      (bubbleUpGo pr x fuel arr k).Perm arr := by
  intro fuel
  induction fuel with
  | zero =>
    intro arr k _
    cases k <;> exact List.Perm.refl _
  | succ fuel ih =>
    intro arr k hx
    by_cases hk0 : k = 0
    · subst hk0
      rw [bubbleUpGo_zero]
    · by_cases hp : (k - 1) / 2 < arr.length
      · by_cases hle : pr x ≤ pr arr[(k - 1) / 2]
        · rw [bubbleUpGo_stop pr x fuel arr k hk0 hp hle]
        · have hpi : (k - 1) / 2 ≠ k := by omega
          have harr' : ((arr.set ((k - 1) / 2) x).set k
              arr[(k - 1) / 2])[(k - 1) / 2]? = some x := by
            rw [List.getElem?_set_ne (Ne.symm hpi), List.getElem?_set_self hp]
          have hswap : ((arr.set ((k - 1) / 2) x).set k
              arr[(k - 1) / 2]).Perm arr :=
            set_set_perm hpi (List.getElem?_eq_getElem hp) hx
          rw [bubbleUpGo_swap pr x fuel arr k hk0 hp hle]
          exact (ih _ _ harr').trans hswap
      · rw [bubbleUpGo_oob pr x fuel arr k hk0 hp]

theorem bubbleUp_perm (pr : β → ℚ) (arr : List β) (i : Nat) :
    (bubbleUp pr arr i).Perm arr := by
  rw [bubbleUp]
  rcases h : arr[i]? with _ | x
  · exact List.Perm.refl _
  · exact bubbleUpGo_perm pr x i arr i h

theorem bubbleDownGo_perm (pr : β → ℚ) (x : β) :
    ∀ (fuel : Nat) (arr : List β) (k : Nat), arr[k]? = some x →
      (bubbleDownGo pr x fuel arr k).Perm arr := by
  intro fuel
  induction fuel with
  | zero =>
    intro arr k _
    exact List.Perm.refl _
  | succ fuel ih =>
    intro arr k hx
    by_cases ht : dnTarget pr arr k = k
    · rw [bubbleDownGo_stop pr x fuel arr k ht]
    · rcases harr : arr[dnTarget pr arr k]? with _ | target
      · rw [bubbleDownGo_oob pr x fuel arr k ht harr]
      · have hit : k ≠ dnTarget pr arr k := fun h => ht h.symm
        have htl : dnTarget pr arr k < arr.length :=
          (List.getElem?_eq_some.1 harr).1
        have harr' : ((arr.set k target).set (dnTarget pr arr k)
            x)[dnTarget pr arr k]? = some x :=
          List.getElem?_set_self (by simpa using htl)
        have hswap : ((arr.set k target).set (dnTarget pr arr k) x).Perm arr :=
          set_set_perm hit hx harr
        rw [bubbleDownGo_swap pr x fuel arr k ht target harr]
        exact (ih _ _ harr').trans hswap

theorem bubbleDown_perm (pr : β → ℚ) (arr : List β) (i : Nat) :
    (bubbleDown pr arr i).Perm arr := by
  rw [bubbleDown]
  rcases h : arr[i]? with _ | x
  · exact List.Perm.refl _
  · exact bubbleDownGo_perm pr x arr.length arr i h

/-! ### What the child-selection of `bubbleDown` guarantees -/

theorem dnTarget_self_le (pr : β → ℚ) (arr : List β) (k : Nat)
    (hk : k < arr.length) (ht : dnTarget pr arr k = k) :
    ∀ c, (c = 2 * k + 1 ∨ c = 2 * k + 2) → c < arr.length →
      prAt pr arr c ≤ prAt pr arr k := by
  intro c hc hcl
  simp only [dnTarget] at ht
  by_cases h1 : gtAt pr arr (2 * k + 1) k = true
  · rw [if_pos h1] at ht
    split_ifs at ht <;> omega
  · rw [if_neg h1] at ht
    by_cases h2 : gtAt pr arr (2 * k + 2) k = true
    · rw [if_pos h2] at ht
      omega
    · rcases hc with rfl | rfl
      · exact gtAt_false_le (Bool.not_eq_true _ ▸ h1) hcl hk
      · exact gtAt_false_le (Bool.not_eq_true _ ▸ h2) hcl hk

theorem dnTarget_spec (pr : β → ℚ) (arr : List β) (k : Nat)
    (hk : k < arr.length) (ht : dnTarget pr arr k ≠ k) :
    (dnTarget pr arr k = 2 * k + 1 ∨ dnTarget pr arr k = 2 * k + 2) ∧
      dnTarget pr arr k < arr.length ∧
      prAt pr arr k < prAt pr arr (dnTarget pr arr k) ∧
      ∀ c, (c = 2 * k + 1 ∨ c = 2 * k + 2) → c < arr.length →
        prAt pr arr c ≤ prAt pr arr (dnTarget pr arr k) := by
  have hunfold : dnTarget pr arr k =
      if gtAt pr arr (2 * k + 2)
          (if gtAt pr arr (2 * k + 1) k then 2 * k + 1 else k) then 2 * k + 2
      else if gtAt pr arr (2 * k + 1) k then 2 * k + 1 else k := by
    simp only [dnTarget]
  by_cases h1 : gtAt pr arr (2 * k + 1) k = true
  · obtain ⟨hl1, _, hgt1⟩ := gtAt_true_iff.1 h1
    by_cases h2 : gtAt pr arr (2 * k + 2) (2 * k + 1) = true
    · obtain ⟨hl2, _, hgt2⟩ := gtAt_true_iff.1 h2
      have heq : dnTarget pr arr k = 2 * k + 2 := by
        rw [hunfold, if_pos h1, if_pos h2]
      rw [heq]
      refine ⟨Or.inr rfl, hl2, lt_trans hgt1 hgt2, ?_⟩
      intro c hc hcl
      rcases hc with rfl | rfl
      · exact le_of_lt hgt2
      · exact le_refl _
    · have heq : dnTarget pr arr k = 2 * k + 1 := by
        rw [hunfold, if_pos h1, if_neg h2]
      rw [heq]
      refine ⟨Or.inl rfl, hl1, hgt1, ?_⟩
      intro c hc hcl
      rcases hc with rfl | rfl
      · exact le_refl _
      · exact gtAt_false_le (Bool.not_eq_true _ ▸ h2) hcl hl1
  · by_cases h2 : gtAt pr arr (2 * k + 2) k = true
    · obtain ⟨hl2, _, hgt2⟩ := gtAt_true_iff.1 h2
      have heq : dnTarget pr arr k = 2 * k + 2 := by
        rw [hunfold, if_neg h1, if_pos h2]
      rw [heq]
      refine ⟨Or.inr rfl, hl2, hgt2, ?_⟩
      intro c hc hcl
      rcases hc with rfl | rfl
      · exact le_of_lt
          (lt_of_le_of_lt (gtAt_false_le (Bool.not_eq_true _ ▸ h1) hcl hk) hgt2)
      · exact le_refl _
    · exact absurd (by rw [hunfold, if_neg h1, if_neg h2]) ht

/-! ### The sift loops restore the heap ordering -/

theorem bubbleUpGo_isHeap (pr : β → ℚ) (x : β) :
    ∀ (fuel : Nat) (arr : List β) (k : Nat), k ≤ fuel →
    arr[k]? = some x →
    (∀ j, 0 < j → j < arr.length → j ≠ k →
      prAt pr arr j ≤ prAt pr arr (parentIdx j)) →
    (∀ j, 0 < j → j < arr.length → parentIdx j = k →
      prAt pr arr j ≤ prAt pr arr (parentIdx k)) →
    IsHeapParent pr (bubbleUpGo pr x fuel arr k) := by
  intro fuel
  induction fuel with
  | zero =>
    intro arr k hfuel hx H1 H2
    have hk0 : k = 0 := by omega
    subst hk0
    rw [bubbleUpGo_zero]
    intro j hj0 hjl
    exact H1 j hj0 hjl (by omega)
  | succ fuel ih =>
    intro arr i hfuel hx H1 H2
    by_cases hi0 : i = 0
    · subst hi0
      rw [bubbleUpGo_zero]
      intro j hj0 hjl
      exact H1 j hj0 hjl (by omega)
    · have hi : i < arr.length := (List.getElem?_eq_some.1 hx).1
      have hp' : (i - 1) / 2 < arr.length := by
        have := Nat.div_le_self (i - 1) 2
        omega
      by_cases hle : pr x ≤ pr arr[(i - 1) / 2]
      · rw [bubbleUpGo_stop pr x fuel arr i hi0 hp' hle]
        intro j hj0 hjl
        by_cases hji : j = i
        · subst hji
          have hL : prAt pr arr j = pr x := by simp [prAt, hx]
          have hR : prAt pr arr (parentIdx j) = pr arr[(j - 1) / 2] := by
            rw [show parentIdx j = (j - 1) / 2 from rfl, prAt_eq_pr hp']
          rw [hL, hR]
          exact hle
        · exact H1 j hj0 hjl hji
      · have hgt : ¬pr x ≤ pr arr[(i - 1) / 2] := hle
        have hgt' : pr arr[(i - 1) / 2] < pr x := lt_of_not_le hgt
        have hpi : (i - 1) / 2 ≠ i := by omega
        have hplt : (i - 1) / 2 < i := by omega
        have hfuel' : (i - 1) / 2 ≤ fuel := by omega
        set q := (i - 1) / 2 with hq
        set arr' := (arr.set q x).set i arr[q] with hadef
        have hlen' : arr'.length = arr.length := by simp [hadef]
        have hvi : prAt pr arr' i = pr arr[q] := by
          rw [hadef]
          exact prAt_set_self (by simpa using hi)
        have hvq : prAt pr arr' q = pr x := by
          rw [hadef, prAt_set_ne (Ne.symm hpi), prAt_set_self hp']
        have hvother : ∀ m, m ≠ i → m ≠ q → prAt pr arr' m = prAt pr arr m := by
          intro m hmi hmq
          rw [hadef, prAt_set_ne (fun h => hmi h.symm),
            prAt_set_ne (fun h => hmq h.symm)]
        have hXi : prAt pr arr i = pr x := by simp [prAt, hx]
        have hPq : prAt pr arr q = pr arr[q] := prAt_eq_pr hp'
        have hparentIdx_i : parentIdx i = q := rfl
        -- hypotheses of the recursive call
        have hx' : arr'[q]? = some x := by
          rw [hadef, List.getElem?_set_ne (Ne.symm hpi), List.getElem?_set_self hp']
        have H1' : ∀ j, 0 < j → j < arr'.length → j ≠ q →
            prAt pr arr' j ≤ prAt pr arr' (parentIdx j) := by
          intro j hj0 hjl hjq
          rw [hlen'] at hjl
          by_cases hji : j = i
          · subst hji
            rw [hvi, hparentIdx_i, hvq]
            exact le_of_lt hgt'
          · by_cases hpj : parentIdx j = i
            · rw [hvother j hji hjq, hpj, hvi]
              have hh := H2 j hj0 hjl hpj
              rw [hparentIdx_i, hPq] at hh
              exact hh
            · by_cases hpq : parentIdx j = q
              · rw [hvother j hji hjq, hpq, hvq]
                have hh := H1 j hj0 hjl hji
                rw [hpq, hPq] at hh
                exact le_of_lt (lt_of_le_of_lt hh hgt')
              · rw [hvother j hji hjq, hvother (parentIdx j) hpj hpq]
                exact H1 j hj0 hjl hji
        have H2' : ∀ j, 0 < j → j < arr'.length → parentIdx j = q →
            prAt pr arr' j ≤ prAt pr arr' (parentIdx q) := by
          intro j hj0 hjl hpj
          rw [hlen'] at hjl
          have hbound : pr arr[q] ≤ prAt pr arr' (parentIdx q) := by
            by_cases hq0 : q = 0
            · have hpq0 : parentIdx q = q := by
                rw [hq0]
                simp [parentIdx]
              rw [hpq0, hvq]
              exact le_of_lt hgt'
            · have hq0' : 0 < q := Nat.pos_of_ne_zero hq0
              have hlt := parentIdx_lt hq0'
              have hgq : parentIdx q ≠ i := by omega
              have hgq2 : parentIdx q ≠ q := by omega
              rw [hvother (parentIdx q) hgq hgq2]
              have hh := H1 q hq0' hp' hpi
              rwa [hPq] at hh
          by_cases hji : j = i
          · subst hji
            rw [hvi]
            exact hbound
          · have hjq : j ≠ q := by
              have := parentIdx_lt hj0
              omega
            rw [hvother j hji hjq]
            have hh := H1 j hj0 hjl hji
            rw [hpj, hPq] at hh
            exact le_trans hh hbound
        rw [bubbleUpGo_swap pr x fuel arr i hi0 hp' hgt]
        exact ih arr' q hfuel' hx' H1' H2'

theorem bubbleDownGo_isHeap (pr : β → ℚ) (x : β) :
    ∀ (fuel : Nat) (arr : List β) (k : Nat), arr.length - k ≤ fuel →
    arr[k]? = some x →
    (∀ j, 0 < j → j < arr.length → parentIdx j ≠ k →
      prAt pr arr j ≤ prAt pr arr (parentIdx j)) →
    (∀ j, 0 < j → j < arr.length → parentIdx j = k → 0 < k →
      prAt pr arr j ≤ prAt pr arr (parentIdx k)) →
    IsHeapParent pr (bubbleDownGo pr x fuel arr k) := by
  intro fuel
  induction fuel with
  | zero =>
    intro arr k hfuel hx H1 H2
    have hk : k < arr.length := (List.getElem?_eq_some.1 hx).1
    exact absurd hfuel (by omega)
  | succ fuel ih =>
    intro arr i hfuel hx H1 H2
    by_cases ht' : dnTarget pr arr i = i
    · have hi : i < arr.length := (List.getElem?_eq_some.1 hx).1
      rw [bubbleDownGo_stop pr x fuel arr i ht']
      intro j hj0 hjl
      by_cases hpj : parentIdx j = i
      · have hchild : j = 2 * i + 1 ∨ j = 2 * i + 2 := by
          simp only [parentIdx] at hpj
          omega
        have hle := dnTarget_self_le pr arr i hi ht' j hchild hjl
        rw [hpj]
        exact hle
      · exact H1 j hj0 hjl hpj
    · have hi : i < arr.length := (List.getElem?_eq_some.1 hx).1
      obtain ⟨hchild, htl, hlt, hsib⟩ := dnTarget_spec pr arr i hi ht'
      rcases harrt : arr[dnTarget pr arr i]? with _ | target
      · rw [List.getElem?_eq_getElem htl] at harrt
        exact Option.noConfusion harrt
      · set w := dnTarget pr arr i with hw
        have hfuel' : arr.length - w ≤ fuel := by
          have hiw' : i < w := by
            rcases hchild with h | h <;> omega
          omega
        have hiw : i < w := by
          rcases hchild with h | h <;> omega
        have hwi : w ≠ i := by omega
        have hparentw : parentIdx w = i := by
          rcases hchild with h | h
          · rw [h, parentIdx_child_left]
          · rw [h, parentIdx_child_right]
        set arr' := (arr.set i target).set w x with hadef
        have hlen' : arr'.length = arr.length := by simp [hadef]
        have hvw : prAt pr arr' w = pr x := by
          rw [hadef]
          exact prAt_set_self (by simpa using htl)
        have hvi : prAt pr arr' i = pr target := by
          rw [hadef, prAt_set_ne hwi, prAt_set_self hi]
        have hvother : ∀ m, m ≠ i → m ≠ w → prAt pr arr' m = prAt pr arr m := by
          intro m hmi hmw
          rw [hadef, prAt_set_ne (fun h => hmw h.symm),
            prAt_set_ne (fun h => hmi h.symm)]
        have hXi : prAt pr arr i = pr x := by simp [prAt, hx]
        have hTw : prAt pr arr w = pr target := by simp [prAt, harrt]
        have hx' : arr'[w]? = some x := by
          rw [hadef]
          exact List.getElem?_set_self (by simpa using htl)
        have H1' : ∀ j, 0 < j → j < arr'.length → parentIdx j ≠ w →
            prAt pr arr' j ≤ prAt pr arr' (parentIdx j) := by
          intro j hj0 hjl hpj
          rw [hlen'] at hjl
          by_cases hjw : j = w
          · subst hjw
            rw [hvw, hparentw, hvi, ← hXi, ← hTw]
            exact le_of_lt hlt
          · by_cases hji : j = i
            · subst hji
              have hpi := parentIdx_lt hj0
              have hp1 : parentIdx j ≠ j := by omega
              have hp2 : parentIdx j ≠ w := by omega
              rw [hvi, hvother (parentIdx j) hp1 hp2]
              have hh := H2 w (by omega) htl hparentw hj0
              rwa [hTw] at hh
            · by_cases hpi : parentIdx j = i
              · have hjchild : j = 2 * i + 1 ∨ j = 2 * i + 2 := by
                  simp only [parentIdx] at hpi
                  omega
                rw [hvother j hji hjw, hpi, hvi]
                have hh := hsib j hjchild hjl
                rwa [hTw] at hh
              · rw [hvother j hji hjw, hvother (parentIdx j) hpi hpj]
                exact H1 j hj0 hjl hpi
        have H2' : ∀ j, 0 < j → j < arr'.length → parentIdx j = w → 0 < w →
            prAt pr arr' j ≤ prAt pr arr' (parentIdx w) := by
          intro j hj0 hjl hpj hw0
          rw [hlen'] at hjl
          have hwj : w < j := by
            have := parentIdx_lt hj0
            omega
          have hji : j ≠ i := by omega
          have hjw : j ≠ w := by omega
          rw [hparentw, hvi, hvother j hji hjw]
          have hh := H1 j hj0 hjl (by omega)
          rw [hpj, hTw] at hh
          exact hh
        rw [bubbleDownGo_swap pr x fuel arr i ht' target harrt, ← hw, ← hadef]
        exact ih arr' w (by rw [hlen']; exact hfuel') hx' H1' H2'

theorem bubbleUp_isHeap (pr : β → ℚ) (arr : List β) (k : Nat) (x : β)
    (hx : arr[k]? = some x)
    (H1 : ∀ j, 0 < j → j < arr.length → j ≠ k →
      prAt pr arr j ≤ prAt pr arr (parentIdx j))
    (H2 : ∀ j, 0 < j → j < arr.length → parentIdx j = k →
      prAt pr arr j ≤ prAt pr arr (parentIdx k)) :
    IsHeapParent pr (bubbleUp pr arr k) := by
  rw [bubbleUp]
  rw [hx]
  exact bubbleUpGo_isHeap pr x k arr k (le_refl k) hx H1 H2

theorem bubbleDown_isHeap (pr : β → ℚ) (arr : List β) (k : Nat) (x : β)
    (hx : arr[k]? = some x)
    (H1 : ∀ j, 0 < j → j < arr.length → parentIdx j ≠ k →
      prAt pr arr j ≤ prAt pr arr (parentIdx j))
    (H2 : ∀ j, 0 < j → j < arr.length → parentIdx j = k → 0 < k →
      prAt pr arr j ≤ prAt pr arr (parentIdx k)) :
    IsHeapParent pr (bubbleDown pr arr k) := by
  rw [bubbleDown]
  rw [hx]
  exact bubbleDownGo_isHeap pr x arr.length arr k (by omega) hx H1 H2

/-! ### From a heap to the sift preconditions, after a one-point change -/

theorem isHeapParent_congr (pr pr' : β → ℚ) (arr : List β)
    (hsame : ∀ m, m < arr.length → prAt pr' arr m = prAt pr arr m)
    (hH : IsHeapParent pr arr) : IsHeapParent pr' arr := by
  intro j hj0 hjl
  rw [hsame j hjl, hsame (parentIdx j) (lt_trans (parentIdx_lt hj0) hjl)]
  exact hH j hj0 hjl

theorem isHeapParent_of_short (pr : β → ℚ) (arr : List β)
    (h : arr.length ≤ 1) : IsHeapParent pr arr := by
  intro j hj0 hjl
  omega

theorem upInv_of_heap_increase (pr pr' : β → ℚ) (arr : List β) (k : Nat)
    (hchange : ∀ m, m < arr.length → m ≠ k → prAt pr' arr m = prAt pr arr m)
    (hinc : prAt pr arr k ≤ prAt pr' arr k)
    (hH : IsHeapParent pr arr) :
    (∀ j, 0 < j → j < arr.length → j ≠ k →
      prAt pr' arr j ≤ prAt pr' arr (parentIdx j)) ∧
    (∀ j, 0 < j → j < arr.length → parentIdx j = k →
      prAt pr' arr j ≤ prAt pr' arr (parentIdx k)) := by
  constructor
  · intro j hj0 hjl hjk
    rw [hchange j hjl hjk]
    by_cases hpk : parentIdx j = k
    · rw [hpk]
      exact le_trans (le_trans (hH j hj0 hjl) (le_of_eq (by rw [hpk]))) hinc
    · rw [hchange (parentIdx j) (lt_trans (parentIdx_lt hj0) hjl) hpk]
      exact hH j hj0 hjl
  · intro j hj0 hjl hpj
    have hjk : j ≠ k := by
      have := parentIdx_lt hj0
      omega
    have hk : k < arr.length := hpj ▸ lt_trans (parentIdx_lt hj0) hjl
    have h1 : prAt pr arr j ≤ prAt pr arr k := by
      have := hH j hj0 hjl
      rwa [hpj] at this
    rw [hchange j hjl hjk]
    by_cases hk0 : k = 0
    · have hpkk : parentIdx k = k := by
        rw [hk0]
        simp [parentIdx]
      rw [hpkk]
      exact le_trans h1 hinc
    · have hk0' : 0 < k := Nat.pos_of_ne_zero hk0
      have hpkk : parentIdx k ≠ k := by
        have := parentIdx_lt hk0'
        omega
      rw [hchange (parentIdx k) (lt_trans (parentIdx_lt hk0') hk) hpkk]
      exact le_trans h1 (hH k hk0' hk)

theorem downInv_of_heap_decrease (pr pr' : β → ℚ) (arr : List β) (k : Nat)
    (hchange : ∀ m, m < arr.length → m ≠ k → prAt pr' arr m = prAt pr arr m)
    (hdec : prAt pr' arr k ≤ prAt pr arr k)
    (hH : IsHeapParent pr arr) :
    (∀ j, 0 < j → j < arr.length → parentIdx j ≠ k →
      prAt pr' arr j ≤ prAt pr' arr (parentIdx j)) ∧
    (∀ j, 0 < j → j < arr.length → parentIdx j = k → 0 < k →
      prAt pr' arr j ≤ prAt pr' arr (parentIdx k)) := by
  constructor
  · intro j hj0 hjl hpj
    have hpl : parentIdx j < arr.length := lt_trans (parentIdx_lt hj0) hjl
    by_cases hjk : j = k
    · rw [hchange (parentIdx j) hpl hpj]
      exact le_trans (hjk ▸ hdec) (hjk ▸ hH j hj0 hjl)
    · rw [hchange j hjl hjk, hchange (parentIdx j) hpl hpj]
      exact hH j hj0 hjl
  · intro j hj0 hjl hpj hk0
    have hjk : j ≠ k := by
      have := parentIdx_lt hj0
      omega
    have hk : k < arr.length := hpj ▸ lt_trans (parentIdx_lt hj0) hjl
    have hpkk : parentIdx k ≠ k := by
      have := parentIdx_lt hk0
      omega
    have h1 : prAt pr arr j ≤ prAt pr arr k := by
      have := hH j hj0 hjl
      rwa [hpj] at this
    rw [hchange j hjl hjk, hchange (parentIdx k)
      (lt_trans (parentIdx_lt hk0) hk) hpkk]
    exact le_trans h1 (hH k hk0 hk)

/-! ### The priority view through the object table -/

theorem prioOf_append_lt {store : List (Entry α)} {e : Entry α} {id : Nat}
    (h : id < store.length) : prioOf (store ++ [e]) id = prioOf store id := by
  simp [prioOf, List.getElem?_append, h]

theorem prioOf_append_self (store : List (Entry α)) (e : Entry α) :
    prioOf (store ++ [e]) store.length = e.priority := by
  simp [prioOf, List.getElem?_concat_length]

theorem prioOf_modify_ne {store : List (Entry α)} {f : Entry α → Entry α}
    {id id' : Nat} (h : id ≠ id') :
    prioOf (store.modify f id) id' = prioOf store id' := by
  simp only [prioOf, List.getElem?_modify, if_neg h]
  cases store[id']? <;> rfl

theorem prioOf_modify_priority_le {store : List (Entry α)} {id : Nat} {q : ℚ}
    (h : id < store.length) :
    prioOf (store.modify (fun e => { e with priority := q }) id) id = q := by
  simp [prioOf, List.getElem?_modify, List.getElem?_eq_getElem h]

theorem prioOf_oob {store : List (Entry α)} {id : Nat}
    (h : store.length ≤ id) : prioOf store id = 0 := by
  simp [prioOf, List.getElem?_eq_none h]

/-! ### Heap preservation by `add`, `next` and `changePriority` -/

theorem add_isHeap (s : PriorityQueue α) (e : α) (p : ℚ)
    (hWF : ∀ id ∈ s.heapArr, id < s.store.length)
    (hH : IsHeapState s) : IsHeapState (s.add e p).2 := by
  have hHp : IsHeapParent (prioOf s.store) s.heapArr := isHeapArr_iff_parent.1 hH
  show IsHeapArr (prioOf (s.store ++ [⟨e, p⟩]))
    (bubbleUp (prioOf (s.store ++ [⟨e, p⟩])) (s.heapArr ++ [s.store.length])
      ((s.heapArr ++ [s.store.length]).length - 1))
  rw [isHeapArr_iff_parent]
  have hidx : (s.heapArr ++ [s.store.length]).length - 1 = s.heapArr.length := by
    simp
  rw [hidx]
  have hx : (s.heapArr ++ [s.store.length])[s.heapArr.length]? =
      some s.store.length := List.getElem?_concat_length _ _
  have hlen1 : (s.heapArr ++ [s.store.length]).length = s.heapArr.length + 1 := by
    simp
  have hsame : ∀ j, j < s.heapArr.length →
      prAt (prioOf (s.store ++ [⟨e, p⟩])) (s.heapArr ++ [s.store.length]) j =
        prAt (prioOf s.store) s.heapArr j := by
    intro j hj
    have harrj : (s.heapArr ++ [s.store.length])[j]? = some s.heapArr[j] := by
      rw [List.getElem?_append]
      simp [hj, List.getElem?_eq_getElem hj]
    have hidlt : s.heapArr[j] < s.store.length :=
      hWF _ (List.getElem_mem hj)
    rw [prAt, prAt, harrj, List.getElem?_eq_getElem hj]
    simp [prioOf_append_lt hidlt]
  apply bubbleUp_isHeap _ _ _ s.store.length hx
  · intro j hj0 hjl hjn
    rw [hlen1] at hjl
    have hjlt : j < s.heapArr.length := by omega
    have hplt : parentIdx j < j := parentIdx_lt hj0
    rw [hsame j hjlt, hsame (parentIdx j) (by omega)]
    exact hHp j hj0 hjlt
  · intro j hj0 hjl hpj
    exfalso
    rw [hlen1] at hjl
    simp only [parentIdx] at hpj
    omega

theorem next_isHeap [Inhabited α] (s : PriorityQueue α) (hH : IsHeapState s) :
    IsHeapState s.next.2 := by
  have hHp : IsHeapParent (prioOf s.store) s.heapArr := isHeapArr_iff_parent.1 hH
  by_cases hne : s.heapArr = []
  · simp only [PriorityQueue.next, dif_pos hne]
    exact hH
  · simp only [PriorityQueue.next, dif_neg hne]
    rw [IsHeapState, isHeapArr_iff_parent]
    simp only []
    set popped := s.heapArr.getLast hne with hpop
    set arr2 := popped :: s.heapArr.dropLast.tail with harr2
    have harr2ne : arr2.length ≠ 0 := by simp [harr2]
    rw [if_pos harr2ne]
    have hx : arr2[0]? = some popped := by rw [harr2]; simp
    by_cases hshort : s.heapArr.length ≤ 1
    · -- singleton heap: the sifted result still has length 1
      apply isHeapParent_of_short
      have hperm := bubbleDown_perm (prioOf s.store) arr2 0
      rw [hperm.length_eq, harr2]
      have := List.length_dropLast s.heapArr
      simp only [List.length_cons]
      have htl : s.heapArr.dropLast.tail.length = s.heapArr.length - 1 - 1 := by
        simp
      omega
    · -- at least two entries: positions 1.. of arr2 coincide with the old
      -- positions 1.., and the sift from the root restores the ordering
      have hlen2 : arr2.length = s.heapArr.length - 1 := by
        simp only [harr2, List.length_cons, List.length_tail,
          List.length_dropLast]
        omega
      have hsame : ∀ m, 0 < m → m < arr2.length →
          prAt (prioOf s.store) arr2 m = prAt (prioOf s.store) s.heapArr m := by
        intro m hm0 hml
        have harr2m : arr2[m]? = s.heapArr[m]? := by
          rw [harr2]
          rcases m with _ | m'
          · omega
          · rw [List.getElem?_cons_succ]
            have htail : s.heapArr.dropLast.tail[m']? = s.heapArr.dropLast[m' + 1]? := by
              rcases hdl : s.heapArr.dropLast with _ | ⟨d0, dt⟩
              · simp [hdl]
              · simp [hdl]
            rw [htail, List.getElem?_dropLast]
            rw [hlen2] at hml
            rw [if_pos (by omega)]
        rw [prAt, prAt, harr2m]
      apply bubbleDown_isHeap _ _ _ popped hx
      · intro j hj0 hjl hpj
        have hp0 : 0 < parentIdx j := Nat.pos_of_ne_zero hpj
        have hplt : parentIdx j < j := parentIdx_lt hj0
        rw [hsame j hj0 hjl, hsame (parentIdx j) hp0 (by omega)]
        rw [hlen2] at hjl
        exact hHp j hj0 (by omega)
      · intro j hj0 hjl hpj hk0
        exact absurd hk0 (by omega)

theorem changePriority_isHeap (s : PriorityQueue α) (id : Nat) (q : ℚ)
    (hnd : s.heapArr.Nodup) (hH : IsHeapState s) :
    IsHeapState (s.changePriority id q).2 := by
  have hHp : IsHeapParent (prioOf s.store) s.heapArr := isHeapArr_iff_parent.1 hH
  by_cases href : id ∈ s.references
  · rcases hscan : scanIndex id s.heapArr with _ | index
    · -- the object is no longer in the heap array: the store update does not
      -- touch any priority read through the array
      have hnotmem : id ∉ s.heapArr := scanIndex_none_iff.1 hscan
      have hcongr : IsHeapArr
          (prioOf (s.store.modify (fun en => { en with priority := q }) id))
          s.heapArr := by
        rw [isHeapArr_iff_parent]
        apply isHeapParent_congr (prioOf s.store)
        · intro m hml
          rw [prAt, prAt, List.getElem?_eq_getElem hml]
          have hne : id ≠ s.heapArr[m] :=
            fun h => hnotmem (h ▸ List.getElem_mem hml)
          simp [prioOf_modify_ne hne]
        · exact hHp
      simp only [PriorityQueue.changePriority, if_pos href, hscan]
      split_ifs with hpq
      · exact hcongr
      · exact hcongr
    · have hidx : s.heapArr[index]? = some id := scanIndex_some hscan
      have hil : index < s.heapArr.length := (List.getElem?_eq_some.1 hidx).1
      have hchange : ∀ m, m < s.heapArr.length → m ≠ index →
          prAt (prioOf (s.store.modify (fun en => { en with priority := q }) id))
            s.heapArr m = prAt (prioOf s.store) s.heapArr m := by
        intro m hml hmi
        have hgm : s.heapArr[m]? = some s.heapArr[m] := List.getElem?_eq_getElem hml
        have hne : id ≠ s.heapArr[m] := by
          intro h
          have hgi : s.heapArr[index] = id := (List.getElem?_eq_some.1 hidx).2
          have hsame : s.heapArr[index] = s.heapArr[m] := by rw [hgi, ← h]
          exact hmi ((hnd.getElem_inj_iff.1 hsame).symm)
        rw [prAt, prAt, hgm]
        simp [prioOf_modify_ne hne]
      have hvalI : prAt (prioOf s.store) s.heapArr index = prioOf s.store id := by
        rw [prAt, hidx]
        rfl
      have hvalI' : prAt
          (prioOf (s.store.modify (fun en => { en with priority := q }) id))
          s.heapArr index = prioOf (s.store.modify (fun en => { en with priority := q }) id) id := by
        rw [prAt, hidx]
        rfl
      have hnewCases : prioOf (s.store.modify (fun en => { en with priority := q }) id) id = q ∨
          prioOf (s.store.modify (fun en => { en with priority := q }) id) id =
            prioOf s.store id := by
        by_cases hidlen : id < s.store.length
        · exact Or.inl (prioOf_modify_priority_le hidlen)
        · refine Or.inr ?_
          rw [prioOf_oob (by simpa using not_lt.1 hidlen), prioOf_oob (not_lt.1 hidlen)]
      simp only [PriorityQueue.changePriority, if_pos href, hscan]
      rw [IsHeapState]
      simp only []
      split_ifs with hlt hgt
      · -- newPriority < oldPriority: sift down
        rw [isHeapArr_iff_parent]
        have hdec : prAt (prioOf (s.store.modify (fun en => { en with priority := q }) id))
            s.heapArr index ≤ prAt (prioOf s.store) s.heapArr index := by
          rw [hvalI, hvalI']
          rcases hnewCases with h | h
          · rw [h]; exact le_of_lt hlt
          · rw [h]
        have hinv := downInv_of_heap_decrease (prioOf s.store) _ s.heapArr index
          hchange hdec hHp
        exact bubbleDown_isHeap _ _ _ id hidx hinv.1 hinv.2
      · -- oldPriority < newPriority: sift up
        rw [isHeapArr_iff_parent]
        have hinc : prAt (prioOf s.store) s.heapArr index ≤
            prAt (prioOf (s.store.modify (fun en => { en with priority := q }) id))
              s.heapArr index := by
          rw [hvalI, hvalI']
          rcases hnewCases with h | h
          · rw [h]; exact le_of_lt hgt
          · rw [h]
        have hinv := upInv_of_heap_increase (prioOf s.store) _ s.heapArr index
          hchange hinc hHp
        exact bubbleUp_isHeap _ _ _ id hidx hinv.1 hinv.2
      · -- equal priorities: no sift, no priority visible through the array
        -- changes
        rw [isHeapArr_iff_parent]
        apply isHeapParent_congr (prioOf s.store)
        · intro m hml
          by_cases hmi : m = index
          · subst hmi
            rw [hvalI, hvalI']
            rcases hnewCases with h | h
            · rw [h]
              exact le_antisymm (not_lt.1 hgt) (not_lt.1 hlt)
            · rw [h]
          · exact hchange m hml hmi
        · exact hHp
  · simp only [PriorityQueue.changePriority, if_neg href]
    exact hH

/-! ### Component computations of the operations -/

namespace PriorityQueue

theorem add_store (s : PriorityQueue α) (e : α) (p : ℚ) :
    (s.add e p).2.store = s.store ++ [⟨e, p⟩] := rfl

theorem add_heapArr (s : PriorityQueue α) (e : α) (p : ℚ) :
    (s.add e p).2.heapArr =
      bubbleUp (prioOf (s.store ++ [⟨e, p⟩])) (s.heapArr ++ [s.store.length])
        ((s.heapArr ++ [s.store.length]).length - 1) := rfl

theorem add_deletedElements (s : PriorityQueue α) (e : α) (p : ℚ) :
    (s.add e p).2.deletedElements = s.deletedElements := rfl

theorem add_references (s : PriorityQueue α) (e : α) (p : ℚ) :
    (s.add e p).2.references = s.references.insert s.store.length := rfl

theorem add_counter (s : PriorityQueue α) (e : α) (p : ℚ) :
    (s.add e p).2.counterDequeuedElements = s.counterDequeuedElements + 1 := rfl

theorem add_fst (s : PriorityQueue α) (e : α) (p : ℚ) :
    (s.add e p).1 = s.store.length := rfl

theorem add_heapArr_perm (s : PriorityQueue α) (e : α) (p : ℚ) :
    (s.add e p).2.heapArr.Perm (s.heapArr ++ [s.store.length]) := by
  rw [add_heapArr]
  exact bubbleUp_perm _ _ _

theorem next_of_nil [Inhabited α] {s : PriorityQueue α} (h : s.heapArr = []) :
    s.next = (none, s) := by
  simp [next, h]

theorem next_store [Inhabited α] (s : PriorityQueue α) :
    s.next.2.store = s.store := by
  by_cases h : s.heapArr = [] <;> simp [next, h]

theorem next_counter [Inhabited α] (s : PriorityQueue α) :
    s.next.2.counterDequeuedElements = s.counterDequeuedElements := by
  by_cases h : s.heapArr = [] <;> simp [next, h]

theorem next_fst [Inhabited α] {s : PriorityQueue α} (h : s.heapArr ≠ []) :
    s.next.1 = some (elemOf s.store (s.heapArr.head h)) := by
  simp [next, h]

theorem next_heapArr [Inhabited α] {s : PriorityQueue α} (h : s.heapArr ≠ []) :
    s.next.2.heapArr = bubbleDown (prioOf s.store)
      (s.heapArr.getLast h :: s.heapArr.dropLast.tail) 0 := by
  simp [next, h]

theorem next_deletedElements [Inhabited α] {s : PriorityQueue α}
    (h : s.heapArr ≠ []) :
    s.next.2.deletedElements = s.deletedElements.insert (s.heapArr.head h) := by
  simp [next, h]

theorem next_references [Inhabited α] {s : PriorityQueue α}
    (h : s.heapArr ≠ []) :
    s.next.2.references = s.references.erase (s.heapArr.head h) := by
  simp [next, h]

theorem next_fst_cons [Inhabited α] {s : PriorityQueue α} {h0 : Nat}
    {t : List Nat} (h : s.heapArr = h0 :: t) :
    s.next.1 = some (elemOf s.store h0) := by
  simp [next, h]

theorem next_heapArr_cons [Inhabited α] {s : PriorityQueue α} {h0 : Nat}
    {t : List Nat} (h : s.heapArr = h0 :: t) :
    s.next.2.heapArr = bubbleDown (prioOf s.store)
      ((h0 :: t).getLast (List.cons_ne_nil h0 t) :: (h0 :: t).dropLast.tail)
      0 := by
  simp [next, h]

theorem next_deletedElements_cons [Inhabited α] {s : PriorityQueue α}
    {h0 : Nat} {t : List Nat} (h : s.heapArr = h0 :: t) :
    s.next.2.deletedElements = s.deletedElements.insert h0 := by
  simp [next, h]

theorem next_references_cons [Inhabited α] {s : PriorityQueue α}
    {h0 : Nat} {t : List Nat} (h : s.heapArr = h0 :: t) :
    s.next.2.references = s.references.erase h0 := by
  simp [next, h]

theorem changePriority_of_not_ref {s : PriorityQueue α} {id : Nat} {q : ℚ}
    (h : id ∉ s.references) :
    s.changePriority id q = (.error .invalidReference, s) := by
  simp [changePriority, h]

theorem changePriority_references (s : PriorityQueue α) (id : Nat) (q : ℚ) :
    (s.changePriority id q).2.references = s.references := by
  by_cases href : id ∈ s.references
  · rcases hscan : scanIndex id s.heapArr with _ | index <;>
      simp only [changePriority, if_pos href, hscan] <;> split_ifs <;> rfl
  · simp [changePriority, href]

theorem changePriority_deletedElements (s : PriorityQueue α) (id : Nat) (q : ℚ) :
    (s.changePriority id q).2.deletedElements = s.deletedElements := by
  by_cases href : id ∈ s.references
  · rcases hscan : scanIndex id s.heapArr with _ | index <;>
      simp only [changePriority, if_pos href, hscan] <;> split_ifs <;> rfl
  · simp [changePriority, href]

theorem changePriority_counter (s : PriorityQueue α) (id : Nat) (q : ℚ) :
    (s.changePriority id q).2.counterDequeuedElements =
      s.counterDequeuedElements := by
  by_cases href : id ∈ s.references
  · rcases hscan : scanIndex id s.heapArr with _ | index <;>
      simp only [changePriority, if_pos href, hscan] <;> split_ifs <;> rfl
  · simp [changePriority, href]

theorem changePriority_store_length (s : PriorityQueue α) (id : Nat) (q : ℚ) :
    (s.changePriority id q).2.store.length = s.store.length := by
  by_cases href : id ∈ s.references
  · rcases hscan : scanIndex id s.heapArr with _ | index <;>
      simp only [changePriority, if_pos href, hscan] <;>
      first
      | simp only [List.length_modify]
      | split_ifs <;> simp only [List.length_modify]
  · simp [changePriority, href]

theorem changePriority_heapArr_perm (s : PriorityQueue α) (id : Nat) (q : ℚ) :
    (s.changePriority id q).2.heapArr.Perm s.heapArr := by
  by_cases href : id ∈ s.references
  · rcases hscan : scanIndex id s.heapArr with _ | index
    · simp only [changePriority, if_pos href, hscan]
      split_ifs <;> exact List.Perm.refl _
    · simp only [changePriority, if_pos href, hscan]
      split_ifs
      · exact bubbleDown_perm _ _ _
      · exact bubbleUp_perm _ _ _
      · exact List.Perm.refl _
  · simp [changePriority, href]

theorem removeByRef_of_deleted {s : PriorityQueue α} {id : Nat}
    (h : id ∈ s.deletedElements) : s.removeByRef id = (.ok false, s) := by
  simp [removeByRef, h]

theorem removeByRef_of_not_found {s : PriorityQueue α} {id : Nat}
    (h1 : id ∉ s.deletedElements) (h2 : scanIndex id s.heapArr = none) :
    s.removeByRef id = (.error .invalidReference, s) := by
  simp [removeByRef, h1, h2]

theorem removeByRef_of_found {s : PriorityQueue α} {id : Nat} {index : Nat}
    (h1 : id ∉ s.deletedElements) (h2 : scanIndex id s.heapArr = some index) :
    s.removeByRef id = (.ok true,
      { s with heapArr := s.heapArr.eraseIdx index,
               prioritiesObj := decreasePriority s.prioritiesObj (prioOf s.store id),
               deletedElements := s.deletedElements.insert id }) := by
  simp [removeByRef, h1, h2]

theorem removeByRef_store (s : PriorityQueue α) (id : Nat) :
    (s.removeByRef id).2.store = s.store := by
  by_cases h1 : id ∈ s.deletedElements
  · simp [removeByRef_of_deleted h1]
  · rcases h2 : scanIndex id s.heapArr with _ | index
    · simp [removeByRef_of_not_found h1 h2]
    · simp [removeByRef_of_found h1 h2]

theorem removeByRef_counter (s : PriorityQueue α) (id : Nat) :
    (s.removeByRef id).2.counterDequeuedElements = s.counterDequeuedElements := by
  by_cases h1 : id ∈ s.deletedElements
  · simp [removeByRef_of_deleted h1]
  · rcases h2 : scanIndex id s.heapArr with _ | index
    · simp [removeByRef_of_not_found h1 h2]
    · simp [removeByRef_of_found h1 h2]

theorem removeByPosition_snd_cases (s : PriorityQueue α) (p : Int) :
    (s.removeByPosition p).2 = s ∨
      ∃ id0, (s.removeByPosition p).2 = (s.removeByRef id0).2 := by
  rw [removeByPosition]
  split_ifs
  · exact Or.inl rfl
  · exact Or.inl rfl
  · rcases h : s.heapArr[(p - 1).toNat]? with _ | id0
    · exact Or.inl rfl
    · exact Or.inr ⟨id0, rfl⟩

theorem clear_heapArr (s : PriorityQueue α) : s.clear.heapArr = [] := rfl

theorem clear_counter (s : PriorityQueue α) :
    s.clear.counterDequeuedElements = s.counterDequeuedElements := rfl

theorem clear_references (s : PriorityQueue α) : s.clear.references = [] := rfl

theorem clear_deletedElements (s : PriorityQueue α) :
    s.clear.deletedElements = [] := rfl

end PriorityQueue

/-! ### Preservation of the identity-tracking invariant -/

theorem mem_eraseIdx_of_mem_of_ne {a : β} :
    ∀ {l : List β} {i : Nat}, a ∈ l → l[i]? ≠ some a → a ∈ l.eraseIdx i := by
  intro l
  induction l with
  | nil => intro i h _; simp at h
  | cons x xs ih =>
    intro i hmem hne
    cases i with
    | zero =>
      rw [List.eraseIdx_cons_zero]
      rcases List.mem_cons.1 hmem with rfl | h
      · exact absurd (by simp) hne
      · exact h
    | succ i =>
      rw [List.eraseIdx_cons_succ]
      rcases List.mem_cons.1 hmem with rfl | h
      · exact List.mem_cons_self _ _
      · exact List.mem_cons_of_mem _ (ih h (by simpa using hne))

theorem goodState_add (s : PriorityQueue α) (e : α) (p : ℚ)
    (hG : GoodState s) : GoodState (s.add e p).2 := by
  intro a ha
  rw [PriorityQueue.add_store] at ha
  simp only [List.length_append, List.length_cons, List.length_nil] at ha
  rw [PriorityQueue.add_deletedElements,
    (PriorityQueue.add_heapArr_perm s e p).mem_iff]
  by_cases haL : a < s.store.length
  · rcases hG a haL with h | h
    · exact Or.inl (List.mem_append_left _ h)
    · exact Or.inr h
  · have : a = s.store.length := by omega
    subst this
    exact Or.inl (List.mem_append_right _ (List.mem_singleton.2 rfl))

theorem goodState_next [Inhabited α] (s : PriorityQueue α)
    (hG : GoodState s) : GoodState s.next.2 := by
  rcases hl : s.heapArr with _ | ⟨h0, t⟩
  · rw [PriorityQueue.next_of_nil hl]
    exact hG
  · intro a ha
    rw [PriorityQueue.next_store] at ha
    rw [PriorityQueue.next_heapArr_cons hl,
      PriorityQueue.next_deletedElements_cons hl,
      (bubbleDown_perm _ _ _).mem_iff, List.mem_insert_iff]
    rcases hG a ha with h | h
    · rw [hl] at h
      rcases List.mem_cons.1 h with rfl | hat
      · exact Or.inr (Or.inl rfl)
      · rcases ht : t with _ | ⟨t0, tt⟩
        · rw [ht] at hat; simp at hat
        · rw [ht] at hat
          have hsplit : a ∈ (t0 :: tt).dropLast ∨
              a = (t0 :: tt).getLast (List.cons_ne_nil t0 tt) := by
            rw [← List.dropLast_append_getLast (List.cons_ne_nil t0 tt)] at hat
            rcases List.mem_append.1 hat with h' | h'
            · exact Or.inl h'
            · exact Or.inr (List.mem_singleton.1 h')
          rcases hsplit with h' | h'
          · refine Or.inl ?_
            rw [List.mem_cons]
            exact Or.inr h'
          · refine Or.inl ?_
            rw [List.mem_cons]
            exact Or.inl h'
    · exact Or.inr (Or.inr h)

theorem goodState_changePriority (s : PriorityQueue α) (id : Nat) (q : ℚ)
    (hG : GoodState s) : GoodState (s.changePriority id q).2 := by
  intro a ha
  rw [PriorityQueue.changePriority_store_length] at ha
  rw [PriorityQueue.changePriority_deletedElements,
    (PriorityQueue.changePriority_heapArr_perm s id q).mem_iff]
  exact hG a ha

theorem goodState_removeByRef (s : PriorityQueue α) (id : Nat)
    (hG : GoodState s) : GoodState (s.removeByRef id).2 := by
  by_cases h1 : id ∈ s.deletedElements
  · rw [PriorityQueue.removeByRef_of_deleted h1]
    exact hG
  · rcases h2 : scanIndex id s.heapArr with _ | index
    · rw [PriorityQueue.removeByRef_of_not_found h1 h2]
      exact hG
    · rw [PriorityQueue.removeByRef_of_found h1 h2]
      intro a ha
      simp only [List.mem_insert_iff]
      rcases hG a ha with h | h
      · by_cases hai : a = id
        · exact Or.inr (Or.inl hai)
        · refine Or.inl (mem_eraseIdx_of_mem_of_ne h ?_)
          rw [scanIndex_some h2]
          exact fun hcon => hai (Option.some_inj.1 hcon).symm
      · exact Or.inr (Or.inr h)

theorem goodState_removeByPosition (s : PriorityQueue α) (p : Int)
    (hG : GoodState s) : GoodState (s.removeByPosition p).2 := by
  rcases PriorityQueue.removeByPosition_snd_cases s p with h | ⟨id0, h⟩
  · rw [h]; exact hG
  · rw [h]; exact goodState_removeByRef s id0 hG

theorem goodState_step [Inhabited α] {s : PriorityQueue α} {op : Op α}
    (hG : GoodState s) (hop : op.isClear = false) : GoodState (step s op) := by
  cases op with
  | add e p => exact goodState_add s e p hG
  | next => exact goodState_next s hG
  | changePriority id q => exact goodState_changePriority s id q hG
  | removeByRef id => exact goodState_removeByRef s id hG
  | removeByPosition p => exact goodState_removeByPosition s p hG
  | clear => exact absurd hop (by simp [Op.isClear])

theorem goodState_emptyPQ : GoodState (emptyPQ : PriorityQueue α) := by
  intro a ha
  simp [emptyPQ] at ha

theorem goodState_run [Inhabited α] :
    ∀ (ops : List (Op α)) (s : PriorityQueue α), GoodState s → NoClear ops →
      GoodState (run s ops) := by
  intro ops
  induction ops with
  | nil => intro s hG _; exact hG
  | cons op rest ih =>
    intro s hG hops
    rw [run, List.foldl_cons]
    exact ih _ (goodState_step hG (hops op (List.mem_cons_self _ _)))
      (fun o ho => hops o (List.mem_cons_of_mem _ ho))

/-! ### The total-processed counter across operations -/

/-! ### `positionOf` and the `forEach` traversal -/

/-- The 1-based rank the container reports for `id` through
`findIndex`-style scanning (`0` would be reported for an absent identity,
as `findIndex` returns `-1`). -/
def rankOf (s : PriorityQueue α) (id : Nat) : Int :=
  match scanIndex id s.heapArr with
  | some i => (i : Int) + 1
  | none => 0

theorem positionOf_of_mem {s : PriorityQueue α} {id : Nat}
    (h : id ∈ s.heapArr) : s.positionOf id = .ok (rankOf s id) := by
  obtain ⟨i, hi⟩ := scanIndex_isSome_of_mem h
  rw [PriorityQueue.positionOf, PriorityQueue.getIndexByReference, hi, rankOf, hi]
  rfl

theorem positionOf_of_not_mem {s : PriorityQueue α} {id : Nat}
    (h : id ∉ s.heapArr) : s.positionOf id = .error .invalidReference := by
  rw [PriorityQueue.positionOf, PriorityQueue.getIndexByReference,
    scanIndex_none_iff.2 h]
  rfl

theorem rankOf_bounds {s : PriorityQueue α} {id : Nat} (h : id ∈ s.heapArr) :
    1 ≤ rankOf s id ∧ rankOf s id ≤ s.heapArr.length := by
  obtain ⟨i, hi⟩ := scanIndex_isSome_of_mem h
  have hlt : i < s.heapArr.length := (List.getElem?_eq_some.1 (scanIndex_some hi)).1
  rw [rankOf, hi]
  constructor <;> simp <;> omega

theorem rankOf_points_to {s : PriorityQueue α} {id : Nat} (h : id ∈ s.heapArr) :
    s.heapArr[(rankOf s id - 1).toNat]? = some id := by
  obtain ⟨i, hi⟩ := scanIndex_isSome_of_mem h
  rw [rankOf, hi]
  simpa using scanIndex_some hi

theorem sortedSnapshot_perm (s : PriorityQueue α) :
    (PriorityQueue.sortedSnapshot s).Perm s.heapArr :=
  List.mergeSort_perm _ _

theorem sortedSnapshot_sorted (s : PriorityQueue α) :
    (PriorityQueue.sortedSnapshot s).Pairwise
      (fun a b => prioOf s.store b ≤ prioOf s.store a) := by
  have htrans : ∀ a b c : Nat,
      decide (prioOf s.store b ≤ prioOf s.store a) = true →
      decide (prioOf s.store c ≤ prioOf s.store b) = true →
      decide (prioOf s.store c ≤ prioOf s.store a) = true := by
    intro a b c h1 h2
    simp only [decide_eq_true_eq] at *
    exact le_trans h2 h1
  have htotal : ∀ a b : Nat,
      (decide (prioOf s.store b ≤ prioOf s.store a) ||
        decide (prioOf s.store a ≤ prioOf s.store b)) = true := by
    intro a b
    simp [le_total]
  have hs := List.sorted_mergeSort htrans htotal s.heapArr
  exact hs.imp (fun h => by simpa using h)

theorem forEachGo_ok [Inhabited α] (s : PriorityQueue α) :
    ∀ l : List Nat, (∀ id ∈ l, id ∈ s.heapArr) →
      PriorityQueue.forEachGo s l =
        .ok (l.map fun id => (rankOf s id, elemOf s.store id)) := by
  intro l
  induction l with
  | nil => intro _; rfl
  | cons id rest ih =>
    intro hmem
    rw [PriorityQueue.forEachGo,
      positionOf_of_mem (hmem id (List.mem_cons_self _ _)),
      ih (fun a ha => hmem a (List.mem_cons_of_mem _ ha))]
    rfl

theorem changePriority_fst_found (s : PriorityQueue α) (id : Nat) (q : ℚ)
    (href : id ∈ s.references) {index : Nat}
    (hscan : scanIndex id s.heapArr = some index) :
    (s.changePriority id q).1 =
      match scanIndex id (s.changePriority id q).2.heapArr with
      | some j => .ok ((j : Int) + 1)
      | none => .ok 0 := by
  simp only [PriorityQueue.changePriority, if_pos href, hscan]
  split
  next j heq => rfl
  next heq => rfl

theorem changePriority_live (s : PriorityQueue α) (id : Nat) (q : ℚ)
    (href : id ∈ s.references) (hmem : id ∈ s.heapArr) :
    ∃ r : Nat, (s.changePriority id q).1 = .ok ((r : Int) + 1) ∧
      r < (s.changePriority id q).2.heapArr.length ∧
      (s.changePriority id q).2.heapArr[r]? = some id := by
  obtain ⟨index, hscan⟩ := scanIndex_isSome_of_mem hmem
  have hmem' : id ∈ (s.changePriority id q).2.heapArr :=
    (PriorityQueue.changePriority_heapArr_perm s id q).mem_iff.2 hmem
  obtain ⟨r, hr⟩ := scanIndex_isSome_of_mem hmem'
  refine ⟨r, ?_, (List.getElem?_eq_some.1 (scanIndex_some hr)).1,
    scanIndex_some hr⟩
  rw [changePriority_fst_found s id q href hscan, hr]

theorem atPosition_of_rank [Inhabited α] (s : PriorityQueue α) {id : Nat}
    (h : id ∈ s.heapArr) :
    s.atPosition (rankOf s id) = .ok (some (id, elemOf s.store id)) := by
  obtain ⟨h1, h2⟩ := rankOf_bounds h
  rw [PriorityQueue.atPosition, if_neg (by omega), if_neg (by omega),
    rankOf_points_to h]

theorem counter_step_mono [Inhabited α] (s : PriorityQueue α) (op : Op α) :
    s.counterDequeuedElements ≤ (step s op).counterDequeuedElements := by
  cases op with
  | add e p =>
    rw [step, PriorityQueue.add_counter]
    omega
  | next =>
    rw [step, PriorityQueue.next_counter]
  | changePriority id q =>
    rw [step, PriorityQueue.changePriority_counter]
  | removeByRef id =>
    rw [step, PriorityQueue.removeByRef_counter]
  | removeByPosition p =>
    rcases PriorityQueue.removeByPosition_snd_cases s p with h | ⟨id0, h⟩
    · rw [step, h]
    · rw [step, h, PriorityQueue.removeByRef_counter]
  | clear =>
    rw [step, PriorityQueue.clear_counter]

instance (s : PriorityQueue α) : Decidable (WellFormed s) :=
  inferInstanceAs
    (Decidable (s.heapArr.Nodup ∧ ∀ id ∈ s.heapArr, id < s.store.length))

/-! ## The claims -/

/-- C1 (amended): on a well-formed state (pairwise-distinct, allocated
identities in the heap array) where the max-heap ordering holds — for every
entry at index `i` with a child at `2i+1` or `2i+2`, the parent's priority
is at least the child's — the ordering still holds after `add`, after
`next`, and after `changePriority`.  (As stated over all five mutating
operations the claim is false: `removeByRef` / `removeByPosition` splice the
entry out with no re-heapification and can break the ordering — see the
counterexample.) -/
theorem C1_heap_ordering_after_add_next_changePriority {α : Type}
    [Inhabited α] (s : PriorityQueue α) (e : α) (p : ℚ) (id : Nat) (q : ℚ)
    (hWF : WellFormed s) (hH : IsHeapState s) :
    IsHeapState (s.add e p).2 ∧ IsHeapState s.next.2 ∧
      IsHeapState (s.changePriority id q).2 :=
  ⟨add_isHeap s e p hWF.2 hH, next_isHeap s hH,
    changePriority_isHeap s id q hWF.1 hH⟩

/-- C1 counterexample: after inserting priorities `10, 5, 9, 1, 1, 8, 8`
and removing the priority-`5` entry by reference, the storage array is
`[10, 9, 1, 1, 8, 8]`: the entry at index `2` (priority `1`) has a child at
index `5` (priority `8`) exceeding it, so the heap ordering does **not**
hold after the mutating call `removeByRef`. -/
theorem C1_counterexample_removeByRef_breaks_heap :
    ¬IsHeapState (run (emptyPQ : PriorityQueue Nat)
      [Op.add 0 10, Op.add 0 5, Op.add 0 9, Op.add 0 1, Op.add 0 1,
       Op.add 0 8, Op.add 0 8, Op.removeByRef 1]) := by decide

/-- C1 witness: a concrete two-entry well-formed heap state on which the
amended preservation theorem applies. -/
theorem C1_witness :
    IsHeapState ((run (emptyPQ : PriorityQueue Nat)
        [Op.add 5 5, Op.add 6 3]).add 7 4).2 ∧
      IsHeapState (run (emptyPQ : PriorityQueue Nat)
        [Op.add 5 5, Op.add 6 3]).next.2 ∧
      IsHeapState ((run (emptyPQ : PriorityQueue Nat)
        [Op.add 5 5, Op.add 6 3]).changePriority 1 9).2 :=
  C1_heap_ordering_after_add_next_changePriority
    (run (emptyPQ : PriorityQueue Nat) [Op.add 5 5, Op.add 6 3])
    7 4 1 9 (by decide) (by decide)

/-- C2: `next()` on the empty queue returns the empty result and changes
nothing (never throws).  But on a queue of exactly one entry, `heapArr[0] =
heapArr.pop()` re-creates slot `0` with the entry just popped, so `next()`
returns the root element while the storage array keeps length `1`: the
entry is **not** removed and the size does **not** decrease.  (On sizes ≥ 2
the claim's behavior is what the code does; the one-element case is the
code slip that contradicts the documented dequeue semantics.) -/
theorem C2_next_singleton_leaves_entry :
    (emptyPQ : PriorityQueue Nat).next = (none, emptyPQ) ∧
      ((emptyPQ : PriorityQueue Nat).add 42 5).2.next.1 = some 42 ∧
      ((emptyPQ : PriorityQueue Nat).add 42 5).2.next.2.heapArr.length = 1 ∧
      0 ∈ ((emptyPQ : PriorityQueue Nat).add 42 5).2.next.2.heapArr := by
  decide

/-- C3: in the reachable state `add(42, 5); next()` the queue length is
still `1` (the stale entry of the `next()` slip is still stored) while the
histogram is empty, so `sum(stats.values()) = 0 ≠ 1 = size`: the histogram
invariant fails in a reachable state. -/
theorem C3_histogram_sum_mismatch :
    ((emptyPQ : PriorityQueue Nat).add 42 5).2.next.2.length = 1 ∧
      PriorityQueue.stats ((emptyPQ : PriorityQueue Nat).add 42 5).2.next.2
        = [] ∧
      histSum (PriorityQueue.stats
        ((emptyPQ : PriorityQueue Nat).add 42 5).2.next.2) = 0 := by
  decide

/-- C4 (amended): `changePriority(ref, newPriority)` with a finite numeric
priority raises InvalidReference exactly when `ref` is not in the internal
live set — which covers references never issued and references dequeued by
`next()`, but **not** references removed by `removeByRef` (removal does not
shrink the live set, and on such a reference the call does not raise
InvalidReference — see the counterexample).  On a reference that is in the
live set and still in the storage array it succeeds and returns the
element's new 1-based storage rank. -/
theorem C4_changePriority_validation {α : Type} (s : PriorityQueue α)
    (id : Nat) (q : ℚ) :
    (id ∉ s.references →
      s.changePriority id q = (.error .invalidReference, s)) ∧
    (id ∈ s.references → id ∈ s.heapArr →
      ∃ r : Nat, (s.changePriority id q).1 = .ok ((r : Int) + 1) ∧
        1 ≤ (r : Int) + 1 ∧
        (r : Int) + 1 ≤ (s.changePriority id q).2.heapArr.length ∧
        (s.changePriority id q).2.heapArr[r]? = some id) := by
  constructor
  · exact fun h => PriorityQueue.changePriority_of_not_ref h
  · intro href hmem
    obtain ⟨r, h1, h2, h3⟩ := changePriority_live s id q href hmem
    exact ⟨r, h1, by omega, by omega, h3⟩

/-- C4 counterexample: after `removeByRef` the reference is no longer live,
yet `changePriority` with the unchanged priority returns `ok 0` (it neither
raises InvalidReference nor returns a valid rank). -/
theorem C4_counterexample_removed_ref_ok_zero :
    0 ∈ (run (emptyPQ : PriorityQueue Nat)
        [Op.add 10 5, Op.add 11 3, Op.removeByRef 0]).deletedElements ∧
      ((run (emptyPQ : PriorityQueue Nat)
        [Op.add 10 5, Op.add 11 3, Op.removeByRef 0]).changePriority 0 5).1 =
        .ok 0 := by
  decide

/-- C4 witness: the validation theorem applied to a concrete two-entry
queue, at a never-issued reference and at a live one. -/
theorem C4_witness :
    (run (emptyPQ : PriorityQueue Nat)
        [Op.add 1 5, Op.add 2 3]).changePriority 7 4 =
      (.error .invalidReference,
        run (emptyPQ : PriorityQueue Nat) [Op.add 1 5, Op.add 2 3]) ∧
    ∃ r : Nat,
      ((run (emptyPQ : PriorityQueue Nat)
          [Op.add 1 5, Op.add 2 3]).changePriority 0 4).1 = .ok ((r : Int) + 1) ∧
      1 ≤ (r : Int) + 1 ∧
      (r : Int) + 1 ≤ ((run (emptyPQ : PriorityQueue Nat)
          [Op.add 1 5, Op.add 2 3]).changePriority 0 4).2.heapArr.length ∧
      ((run (emptyPQ : PriorityQueue Nat)
          [Op.add 1 5, Op.add 2 3]).changePriority 0 4).2.heapArr[r]? = some 0 :=
  ⟨(C4_changePriority_validation _ 7 4).1 (by decide),
    (C4_changePriority_validation _ 0 4).2 (by decide) (by decide)⟩

/-- C5: `positionOf` on a once-issued reference that was dequeued by
`next()` raises the invalid-reference error instead of returning `-1`
without raising: the identity scan of `getIndexByReference` throws whenever
the reference is absent from the storage array, contradicting the
documented `-1` contract for removed-but-formerly-valid references. -/
theorem C5_positionOf_raises_for_removed :
    1 ∈ (run (emptyPQ : PriorityQueue Nat)
        [Op.add 100 1, Op.add 101 2, Op.next]).deletedElements ∧
      (run (emptyPQ : PriorityQueue Nat)
        [Op.add 100 1, Op.add 101 2, Op.next]).positionOf 1 =
        .error .invalidReference := by
  decide

/-- C6 (amended): along any trace of mutating operations that never calls
`clear()`, for every reference issued by `add`: while the reference has not
yet been removed or dequeued, `removeByRef` returns `true` and puts it into
the removed set; once it is in the removed set, every call returns `false`
with the state unchanged and never raises.  (With an intervening `clear()`
the claim as stated fails: the removed set is emptied and the call raises —
see the counterexample.) -/
theorem C6_removeByRef_idempotent_without_clear {α : Type} [Inhabited α]
    (ops : List (Op α)) (hops : NoClear ops) (id : Nat) :
    (id < (run (emptyPQ : PriorityQueue α) ops).store.length →
      id ∉ (run (emptyPQ : PriorityQueue α) ops).deletedElements →
      ((run (emptyPQ : PriorityQueue α) ops).removeByRef id).1 = .ok true ∧
        id ∈ ((run (emptyPQ : PriorityQueue α) ops).removeByRef
          id).2.deletedElements) ∧
    (id ∈ (run (emptyPQ : PriorityQueue α) ops).deletedElements →
      (run (emptyPQ : PriorityQueue α) ops).removeByRef id =
        (.ok false, run (emptyPQ : PriorityQueue α) ops)) := by
  have hG : GoodState (run (emptyPQ : PriorityQueue α) ops) :=
    goodState_run ops emptyPQ goodState_emptyPQ hops
  constructor
  · intro hiss hdel
    have hmem : id ∈ (run (emptyPQ : PriorityQueue α) ops).heapArr := by
      rcases hG id hiss with h | h
      · exact h
      · exact absurd h hdel
    obtain ⟨index, hscan⟩ := scanIndex_isSome_of_mem hmem
    rw [PriorityQueue.removeByRef_of_found hdel hscan]
    exact ⟨rfl, List.mem_insert_iff.2 (Or.inl rfl)⟩
  · exact fun h => PriorityQueue.removeByRef_of_deleted h

/-- C6 counterexample: `removeByRef` returns `true`, but after an
intervening `clear()` the same reference makes the subsequent call raise
the invalid-reference error instead of returning `false`. -/
theorem C6_counterexample_clear_breaks_idempotence :
    ((run (emptyPQ : PriorityQueue Nat) [Op.add 7 5]).removeByRef 0).1 =
        .ok true ∧
      ((run (emptyPQ : PriorityQueue Nat)
        [Op.add 7 5, Op.removeByRef 0, Op.clear]).removeByRef 0).1 =
        .error .invalidReference := by
  decide

/-- C6 witness: the amended idempotence theorem applied to a one-add trace,
at the issued reference before and after its removal. -/
theorem C6_witness :
    (((run (emptyPQ : PriorityQueue Nat) [Op.add 9 5]).removeByRef 0).1 =
        .ok true ∧
      0 ∈ ((run (emptyPQ : PriorityQueue Nat)
        [Op.add 9 5]).removeByRef 0).2.deletedElements) ∧
    (run (emptyPQ : PriorityQueue Nat)
        [Op.add 9 5, Op.removeByRef 0]).removeByRef 0 =
      (.ok false, run (emptyPQ : PriorityQueue Nat)
        [Op.add 9 5, Op.removeByRef 0]) :=
  ⟨(C6_removeByRef_idempotent_without_clear [Op.add 9 5] (by decide) 0).1
      (by decide) (by decide),
    (C6_removeByRef_idempotent_without_clear [Op.add 9 5, Op.removeByRef 0]
      (by decide) 0).2 (by decide)⟩

/-- C7: along any trace of mutating operations that never calls `clear()`
(so in particular the entry was not removed by `clear`), every reference
issued by `add` that has not been dequeued by `next` nor removed by
`removeByRef`/`removeByPosition` — i.e. is not in the removed set — still
resolves: `positionOf` succeeds with a rank `r`, `1 ≤ r ≤ size`, and
`at(r)` returns that same reference (with its element), regardless of the
intervening inserts, removals of other entries, or priority changes in the
trace. -/
theorem C7_reference_stability {α : Type} [Inhabited α]
    (ops : List (Op α)) (hops : NoClear ops) (id : Nat)
    (hiss : id < (run (emptyPQ : PriorityQueue α) ops).store.length)
    (hnotrem : id ∉ (run (emptyPQ : PriorityQueue α) ops).deletedElements) :
    ∃ r : Int, (run (emptyPQ : PriorityQueue α) ops).positionOf id = .ok r ∧
      1 ≤ r ∧ r ≤ (run (emptyPQ : PriorityQueue α) ops).heapArr.length ∧
      (run (emptyPQ : PriorityQueue α) ops).atPosition r =
        .ok (some (id, elemOf (run (emptyPQ : PriorityQueue α) ops).store id)) := by
  have hG : GoodState (run (emptyPQ : PriorityQueue α) ops) :=
    goodState_run ops emptyPQ goodState_emptyPQ hops
  have hmem : id ∈ (run (emptyPQ : PriorityQueue α) ops).heapArr := by
    rcases hG id hiss with h | h
    · exact h
    · exact absurd h hnotrem
  obtain ⟨h1, h2⟩ := rankOf_bounds hmem
  exact ⟨rankOf (run (emptyPQ : PriorityQueue α) ops) id,
    positionOf_of_mem hmem, h1, h2, atPosition_of_rank _ hmem⟩

/-- C7 witness: the stability theorem applied to a two-add trace at the
first issued reference. -/
theorem C7_witness :
    ∃ r : Int,
      (run (emptyPQ : PriorityQueue Nat)
        [Op.add 5 1, Op.add 6 2]).positionOf 0 = .ok r ∧
      1 ≤ r ∧
      r ≤ (run (emptyPQ : PriorityQueue Nat)
        [Op.add 5 1, Op.add 6 2]).heapArr.length ∧
      (run (emptyPQ : PriorityQueue Nat)
        [Op.add 5 1, Op.add 6 2]).atPosition r =
        .ok (some (0, elemOf (run (emptyPQ : PriorityQueue Nat)
          [Op.add 5 1, Op.add 6 2]).store 0)) :=
  C7_reference_stability [Op.add 5 1, Op.add 6 2] (by decide) 0
    (by decide) (by decide)

/-- C8: `totalProcessed` (the total-ever-inserted counter) never decreases
across any single mutating operation, and `clear()` leaves it unchanged
while resetting the size to `0`. -/
theorem C8_totalProcessed_monotone {α : Type} [Inhabited α]
    (s : PriorityQueue α) (op : Op α) :
    s.totalProcessed ≤ (step s op).totalProcessed ∧
      s.clear.totalProcessed = s.totalProcessed ∧ s.clear.length = 0 :=
  ⟨counter_step_mono s op, rfl, rfl⟩

/-- C9: `forEach` with a non-callable callback raises the type-mismatch
error and changes nothing; with a callable callback it leaves the state
unchanged and invokes the callback once per entry of the storage array (the
live entries), in descending priority order, passing each entry's current
1-based storage position — exactly the value `positionOf` reports at
invocation time — together with its element. -/
theorem C9_forEach_spec {α : Type} [Inhabited α] (s : PriorityQueue α) :
    s.forEach false = (.error .typeError, s) ∧
    (s.forEach true).2 = s ∧
    ∃ ids : List Nat, ids.Perm s.heapArr ∧
      ids.Pairwise (fun a b => prioOf s.store b ≤ prioOf s.store a) ∧
      (s.forEach true).1 =
        .ok (ids.map fun id => (rankOf s id, elemOf s.store id)) ∧
      ∀ id ∈ ids, s.positionOf id = .ok (rankOf s id) := by
  refine ⟨rfl, rfl, PriorityQueue.sortedSnapshot s, sortedSnapshot_perm s,
    sortedSnapshot_sorted s, ?_, ?_⟩
  · show PriorityQueue.forEachGo s (PriorityQueue.sortedSnapshot s) = _
    exact forEachGo_ok s _ (fun id h => (sortedSnapshot_perm s).mem_iff.1 h)
  · intro id hid
    exact positionOf_of_mem ((sortedSnapshot_perm s).mem_iff.1 hid)

/-- C10: before a `clear()`, a removed reference gets the benign `false`
from `removeByRef`; after `clear()` — which empties the removed set as well
as the live set and the storage — every reference is classified as
never-existed: `positionOf`, `changePriority` and `removeByRef` all raise
the invalid-reference error. -/
theorem C10_clear_invalidates_references {α : Type} (s : PriorityQueue α)
    (id : Nat) (q : ℚ) :
    (id ∈ s.deletedElements → s.removeByRef id = (.ok false, s)) ∧
    s.clear.positionOf id = .error .invalidReference ∧
    (s.clear.changePriority id q).1 = .error .invalidReference ∧
    (s.clear.removeByRef id).1 = .error .invalidReference := by
  refine ⟨fun h => PriorityQueue.removeByRef_of_deleted h, ?_, ?_, ?_⟩
  · exact positionOf_of_not_mem (by rw [PriorityQueue.clear_heapArr]; simp)
  · rw [PriorityQueue.changePriority_of_not_ref
      (by rw [PriorityQueue.clear_references]; simp)]
  · rw [PriorityQueue.removeByRef_of_not_found
      (by rw [PriorityQueue.clear_deletedElements]; simp)
      (scanIndex_none_iff.2 (by rw [PriorityQueue.clear_heapArr]; simp))]

/-- C10 witness: the theorem applied to a concrete state holding one
removed reference. -/
theorem C10_witness :
    (run (emptyPQ : PriorityQueue Nat)
        [Op.add 3 1, Op.removeByRef 0]).removeByRef 0 =
      (.ok false, run (emptyPQ : PriorityQueue Nat)
        [Op.add 3 1, Op.removeByRef 0]) ∧
    (run (emptyPQ : PriorityQueue Nat)
        [Op.add 3 1, Op.removeByRef 0]).clear.positionOf 0 =
      .error .invalidReference :=
  ⟨(C10_clear_invalidates_references
      (run (emptyPQ : PriorityQueue Nat) [Op.add 3 1, Op.removeByRef 0])
      0 1).1 (by decide),
    (C10_clear_invalidates_references
      (run (emptyPQ : PriorityQueue Nat) [Op.add 3 1, Op.removeByRef 0])
      0 1).2.1⟩

end PQModel
